import Mathlib

/-!
# Verification of the cxo core

A shallow embedding of the cxo repository's schema registry, schema codec,
schema-driven size engine and message framing, together with proofs of the
specification's claims about them.

Conventions:
* Byte sequences are modelled as `List Nat` (each entry one byte).
* Go machine integers become `Nat` with explicit `% 2 ^ 32` where the
  generic encoder truncates lengths to `uint32`.
* Fallible Go functions (returning `err`) become `Except`-valued functions;
  Go `panic` at registration time is modelled as a distinct error value.
* `reflect.Kind` values are modelled as the `Nat` constants the Go runtime
  uses (`Bool = 1`, ..., `Array = 17`, `Slice = 23`, `String = 24`,
  `Struct = 25`, `Ptr = 22`).
-/

namespace Cxo

/-! ## Byte primitives (the external skycoin generic encoder) -/

/-- 4-byte little-endian layout of a natural number: the generic encoder's
`uint32` wire format (lengths are truncated to 32 bits, as in Go). -/
def le32 (n : Nat) : List Nat :=
  [n % 256, n / 256 % 256, n / 2 ^ 16 % 256, n / 2 ^ 24 % 256]

/-- Read a little-endian `uint32` from the first four bytes of a buffer
(callers must check the buffer holds at least four bytes). -/
def byteLE4 : List Nat → Nat
  | a :: b :: c :: d :: _ => a + 256 * (b + 256 * (c + 256 * d))
  | _ => 0

theorem le32_length (n : Nat) : (le32 n).length = 4 := rfl

theorem byteLE4_le32 (n : Nat) (r : List Nat) (h : n < 2 ^ 32) :
    byteLE4 (le32 n ++ r) = n := by
  simp only [le32, byteLE4, List.cons_append, List.nil_append]
  omega

/-! ## Message framing (`src/node/messages.go`)

Messages are a closed set of nine variants; the wire format is one
discriminator byte followed by the generic-encoder serialization of the
variant's struct.  `cipher.PubKey` is 33 raw bytes, `skyobject.Reference`
and `skyobject.RegistryReference` are 32 raw bytes, `[]byte` fields are
4-byte-length-prefixed.  `data.RootPack` is external to the sources given;
it is modelled from the spec ("signed root snapshot payload") as an opaque
byte payload serialized with the generic length prefix. -/

/-- Errors `Decode` can report (`messages.go`): `ErrEmptyMessage`,
`ErrInvalidMsgType`, `ErrIncomplieDecoding`, plus failures of the external
deserializer. -/
inductive DecErr
  | empty
  | invalidType (mt : Nat)
  | incomplete
  | deser
deriving DecidableEq

/-- The nine message variants of `messages.go`. -/
inductive Msg
  | ping
  | pong
  | joinFeed (feed : List Nat)
  | leaveFeed (feed : List Nat)
  | root (feed rootPack : List Nat)
  | requestData (ref : List Nat)
  | dataMsg (d : List Nat)
  | requestRegistry (ref : List Nat)
  | registryMsg (reg : List Nat)
deriving DecidableEq

/-- `MsgType` of each variant (`PingMsgType = 1`, ..., `RegistryMsgType = 9`). -/
def Msg.msgType : Msg → Nat
  | .ping => 1
  | .pong => 2
  | .joinFeed _ => 3
  | .leaveFeed _ => 4
  | .root _ _ => 5
  | .requestData _ => 6
  | .dataMsg _ => 7
  | .requestRegistry _ => 8
  | .registryMsg _ => 9

/-- `encoder.Serialize` of each message struct. -/
def serializeMsg : Msg → List Nat
  | .ping => []
  | .pong => []
  | .joinFeed f => f
  | .leaveFeed f => f
  | .root f rp => f ++ le32 rp.length ++ rp
  | .requestData r => r
  | .dataMsg d => le32 d.length ++ d
  | .requestRegistry r => r
  | .registryMsg g => le32 g.length ++ g

/-- `Encode` of `messages.go`: the `MsgType` byte followed by the
serialized message. -/
def Encode (m : Msg) : List Nat := m.msgType :: serializeMsg m

/-- `encoder.DeserializeRawToValue` specialised to each message struct:
returns the decoded message and the number of bytes consumed (trailing
bytes are ignored, their presence is detected by the caller). -/
def deserializePayload (mt : Nat) (p : List Nat) : Except DecErr (Msg × Nat) :=
  match mt with
  | 1 => .ok (.ping, 0)
  | 2 => .ok (.pong, 0)
  | 3 =>
    if p.length < 33 then .error .deser else .ok (.joinFeed (p.take 33), 33)
  | 4 =>
    if p.length < 33 then .error .deser else .ok (.leaveFeed (p.take 33), 33)
  | 5 =>
    if p.length < 33 then .error .deser
    else
      let rest := p.drop 33
      if rest.length < 4 then .error .deser
      else
        let l := byteLE4 rest
        if (rest.drop 4).length < l then .error .deser
        else .ok (.root (p.take 33) ((rest.drop 4).take l), 33 + 4 + l)
  | 6 =>
    if p.length < 32 then .error .deser else .ok (.requestData (p.take 32), 32)
  | 7 =>
    if p.length < 4 then .error .deser
    else
      let l := byteLE4 p
      if (p.drop 4).length < l then .error .deser
      else .ok (.dataMsg ((p.drop 4).take l), 4 + l)
  | 8 =>
    if p.length < 32 then .error .deser
    else .ok (.requestRegistry (p.take 32), 32)
  | 9 =>
    if p.length < 4 then .error .deser
    else
      let l := byteLE4 p
      if (p.drop 4).length < l then .error .deser
      else .ok (.registryMsg ((p.drop 4).take l), 4 + l)
  | _ => .error .deser

/-- `Decode` of `messages.go`: empty-buffer check, discriminator range
check against the static table (length 10: index 0 unassigned plus nine
variants), payload decoding, and the incomplete-decoding check
`n + 1 != len(p)`. -/
def Decode (p : List Nat) : Except DecErr Msg :=
  match p with
  | [] => .error .empty
  | mt :: rest =>
    if mt = 0 ∨ 10 ≤ mt then .error (.invalidType mt)
    else
      match deserializePayload mt rest with
      | .error e => .error e
      | .ok (m, n) => if n + 1 ≠ p.length then .error .incomplete else .ok m

/-- Well-formedness of a message value: fixed-width fields have their Go
type's width, variable fields fit the 32-bit length prefix.  These are
invariants the Go type system enforces before `Encode` is called. -/
def wfMsg : Msg → Prop
  | .joinFeed f => f.length = 33
  | .leaveFeed f => f.length = 33
  | .root f rp => f.length = 33 ∧ rp.length < 2 ^ 32
  | .requestData r => r.length = 32
  | .requestRegistry r => r.length = 32
  | .dataMsg d => d.length < 2 ^ 32
  | .registryMsg g => g.length < 2 ^ 32
  | _ => True

theorem take_len_append (l r : List Nat) (n : Nat) (h : l.length = n) :
    (l ++ r).take n = l := by
  subst h; exact List.take_left l r

theorem drop_len_append (l r : List Nat) (n : Nat) (h : l.length = n) :
    (l ++ r).drop n = r := by
  subst h; exact List.drop_left l r

theorem deserialize_serialize (m : Msg) (hw : wfMsg m) (extra : List Nat) :
    deserializePayload m.msgType (serializeMsg m ++ extra) =
      .ok (m, (serializeMsg m).length) := by
  cases m with
  | ping => rfl
  | pong => rfl
  | joinFeed f =>
    simp only [wfMsg] at hw
    simp only [Msg.msgType, serializeMsg, deserializePayload]
    rw [if_neg (by simp [hw]), take_len_append f extra 33 hw, hw]
  | leaveFeed f =>
    simp only [wfMsg] at hw
    simp only [Msg.msgType, serializeMsg, deserializePayload]
    rw [if_neg (by simp [hw]), take_len_append f extra 33 hw, hw]
  | root f rp =>
    obtain ⟨hf, hrp⟩ := hw
    simp only [Msg.msgType, serializeMsg, deserializePayload]
    have hlen : (f ++ le32 rp.length ++ rp ++ extra).length =
        37 + rp.length + extra.length := by
      simp [hf, le32_length]; omega
    rw [if_neg (by omega)]
    have hdrop : (f ++ le32 rp.length ++ rp ++ extra).drop 33 =
        le32 rp.length ++ (rp ++ extra) := by
      rw [List.append_assoc, List.append_assoc, drop_len_append _ _ 33 hf,
        ← List.append_assoc]
    have htake : (f ++ le32 rp.length ++ rp ++ extra).take 33 = f := by
      rw [List.append_assoc, List.append_assoc, take_len_append _ _ 33 hf]
    simp only [hdrop, htake]
    have h4 : (le32 rp.length ++ (rp ++ extra)).length =
        4 + (rp.length + extra.length) := by
      simp [le32_length]
    rw [if_neg (by omega)]
    rw [byteLE4_le32 _ _ hrp,
      drop_len_append (le32 rp.length) (rp ++ extra) 4 (le32_length _)]
    rw [if_neg (by simp)]
    rw [take_len_append rp extra rp.length rfl]
    have : (f ++ le32 rp.length ++ rp).length = 33 + 4 + rp.length := by
      simp [hf, le32_length]; omega
    rw [this]
  | requestData r =>
    simp only [wfMsg] at hw
    simp only [Msg.msgType, serializeMsg, deserializePayload]
    rw [if_neg (by simp [hw]), take_len_append r extra 32 hw, hw]
  | dataMsg d =>
    simp only [wfMsg] at hw
    simp only [Msg.msgType, serializeMsg, deserializePayload]
    have hlen : ((le32 d.length ++ d) ++ extra).length =
        4 + d.length + extra.length := by
      simp [le32_length]; omega
    rw [if_neg (by omega)]
    rw [List.append_assoc, byteLE4_le32 _ _ hw,
      drop_len_append (le32 d.length) (d ++ extra) 4 (le32_length _)]
    rw [if_neg (by simp)]
    rw [take_len_append d extra d.length rfl]
    have : (le32 d.length ++ d).length = 4 + d.length := by simp [le32_length]
    rw [this]
  | requestRegistry r =>
    simp only [wfMsg] at hw
    simp only [Msg.msgType, serializeMsg, deserializePayload]
    rw [if_neg (by simp [hw]), take_len_append r extra 32 hw, hw]
  | registryMsg g =>
    simp only [wfMsg] at hw
    simp only [Msg.msgType, serializeMsg, deserializePayload]
    have hlen : ((le32 g.length ++ g) ++ extra).length =
        4 + g.length + extra.length := by
      simp [le32_length]; omega
    rw [if_neg (by omega)]
    rw [List.append_assoc, byteLE4_le32 _ _ hw,
      drop_len_append (le32 g.length) (g ++ extra) 4 (le32_length _)]
    rw [if_neg (by simp)]
    rw [take_len_append g extra g.length rfl]
    have : (le32 g.length ++ g).length = 4 + g.length := by simp [le32_length]
    rw [this]

/-- Claim C4: for every message of the nine variants, decoding its
encoding succeeds and returns a structurally equal message. -/
theorem decode_encode_msg (m : Msg) (hw : wfMsg m) :
    Decode (Encode m) = .ok m := by
  have hmt1 : m.msgType ≠ 0 := by cases m <;> simp [Msg.msgType]
  have hmt2 : ¬ 10 ≤ m.msgType := by cases m <;> simp [Msg.msgType]
  have hser := deserialize_serialize m hw []
  rw [List.append_nil] at hser
  simp only [Encode, Decode]
  rw [if_neg (by tauto)]
  rw [hser]
  simp

/-- Witness for C4 at a concrete message. -/
theorem decode_encode_msg_witness :
    Decode (Encode (.dataMsg [7, 7, 7])) = .ok (.dataMsg [7, 7, 7]) :=
  decode_encode_msg (.dataMsg [7, 7, 7]) (by norm_num [wfMsg])

/-- Claim C5: decoding an empty buffer yields exactly the empty-message
error; decoding a buffer whose first byte is `0` or at least the
discriminator table length (10) yields exactly the unknown-message-type
error; and decoding a well-formed encoding extended by one trailing byte
yields exactly the incomplete-decoding error.  All three are reported
failures, never aborts. -/
theorem decode_error_cases :
    Decode [] = .error .empty ∧
    (∀ (b : Nat) (rest : List Nat), b = 0 ∨ (10 ≤ b ∧ b < 256) →
      Decode (b :: rest) = .error (.invalidType b)) ∧
    (∀ (m : Msg) (x : Nat), wfMsg m →
      Decode (Encode m ++ [x]) = .error .incomplete) := by
  refine ⟨rfl, ?_, ?_⟩
  · intro b rest hb
    simp only [Decode]
    rw [if_pos (by omega)]
  · intro m x hw
    have hmt1 : m.msgType ≠ 0 := by cases m <;> simp [Msg.msgType]
    have hmt2 : ¬ 10 ≤ m.msgType := by cases m <;> simp [Msg.msgType]
    have hser := deserialize_serialize m hw [x]
    simp only [Encode, List.cons_append, Decode]
    rw [if_neg (by tauto), hser]
    simp

/-- Witness for C5 at concrete inputs. -/
theorem decode_error_cases_witness :
    Decode [0, 1, 2] = .error (.invalidType 0) ∧
    Decode (Encode .ping ++ [5]) = .error .incomplete :=
  ⟨decode_error_cases.2.1 0 [1, 2] (Or.inl rfl),
   decode_error_cases.2.2 .ping 5 trivial⟩

/-! ## Schema model (src/unnamed/part_001)

The `reflect.Kind` constants used by the code. -/

def kBool : Nat := 1
def kInt8 : Nat := 3
def kInt16 : Nat := 4
def kInt32 : Nat := 5
def kInt64 : Nat := 6
def kUint8 : Nat := 8
def kUint16 : Nat := 9
def kUint32 : Nat := 10
def kUint64 : Nat := 11
def kFloat32 : Nat := 13
def kFloat64 : Nat := 14
def kArray : Nat := 17
def kPtr : Nat := 22
def kSlice : Nat := 23
def kString : Nat := 24
def kStruct : Nat := 25

/-- The schema variants of the skyobject package: the plain `schema`
(scalar kinds, and also placeholders, which are kind + name only),
`sliceSchema`, `arraySchema`, `structSchema` (fields are name, raw tag
bytes, and the field's schema) and `referenceSchema` (the reference type
discriminator, the Go type's kind, and the target element schema — absent
for Dynamic).  In `sliceSchema`/`arraySchema`/`structSchema` the kind is
determined by the variant (Slice/Array/Struct); a plain `schema` carries
an arbitrary kind. -/
inductive Schema
  | plain (kind : Nat) (name : List Nat)
  | sliceS (name : List Nat) (elem : Schema)
  | arrayS (name : List Nat) (length : Nat) (elem : Schema)
  | structS (name : List Nat) (fields : List (List Nat × List Nat × Schema))
  | refS (rt : Nat) (kind : Nat) (elem : Option Schema)

/-- `Schema.Kind()`. -/
def Schema.kind : Schema → Nat
  | .plain k _ => k
  | .sliceS _ _ => kSlice
  | .arrayS _ _ _ => kArray
  | .structS _ _ => kStruct
  | .refS _ k _ => k

/-- `Schema.RawName()` / `Name()` (as bytes). -/
def Schema.name : Schema → List Nat
  | .plain _ n => n
  | .sliceS n _ => n
  | .arrayS n _ _ => n
  | .structS n _ => n
  | .refS _ _ _ => []

/-- `Schema.IsRegistered()`.  Modelled from the spec: a schema is
"registered" when it is a named type (its `name` is non-empty); the
method's body is not among the given sources. -/
def Schema.isRegistered (s : Schema) : Bool := s.name ≠ []

/-- Errors of the size engine and the schema codec:
`ErrInvalidSchemaOrData`, `ErrInvalidSchema`, the `fmt.Errorf` for a
reference with an invalid `ReferenceType`, `ErrInvalidEncodedSchema`,
failures of the external `encoder.DeserializeRaw`, and a Go nil-pointer
dereference (reachable only through schemas no code path constructs). -/
inductive SErr
  | invalidSchemaOrData
  | invalidSchema
  | invalidRefType
  | invalidEncodedSchema
  | deser
  | nilDeref
deriving DecidableEq

/-! ## Size engine (src/unnamed/part_002) -/

/-- `getLength`: deserialize the 4-byte `uint32` length prefix. -/
def getLength (p : List Nat) : Except SErr Nat :=
  if p.length < 4 then .error .deser else .ok (byteLE4 p)

/-- `fixedSize`: byte width of fixed-size kinds, `-1` otherwise. -/
def fixedSize (kind : Nat) : Int :=
  if kind = kBool ∨ kind = kInt8 ∨ kind = kUint8 then 1
  else if kind = kInt16 ∨ kind = kUint16 then 2
  else if kind = kInt32 ∨ kind = kUint32 ∨ kind = kFloat32 then 4
  else if kind = kInt64 ∨ kind = kUint64 ∨ kind = kFloat64 then 8
  else -1

theorem fixedSize_kString : fixedSize kString = -1 := by decide

theorem fixedSize_kSlice : fixedSize kSlice = -1 := by decide

theorem fixedSize_kArray : fixedSize kArray = -1 := by decide

theorem fixedSize_kStruct : fixedSize kStruct = -1 := by decide

/-- `refSize(&References{})`: the byte span of an encoded `References`
value (4-byte count followed by that many 32-byte digests), reported by
the external deserializer, which fails on a short buffer. -/
def refsSize (p : List Nat) : Except SErr Nat :=
  if p.length < 4 then .error .deser
  else
    let k := byteLE4 p
    if p.length < 4 + 32 * k then .error .deser else .ok (4 + 32 * k)

/-- The final `if n > len(p) { err = ErrInvalidSchemaOrData }` check of
`SchemaSize`. -/
def sizeChecked (p : List Nat) (n : Nat) : Except SErr Nat :=
  if p.length < n then .error .invalidSchemaOrData else .ok n

mutual

/-- `SchemaSize` (src/unnamed/part_002 lines 69-130): size used by the
encoded data of a given schema.  Reference schemas return early with
fixed digest widths (`Single` = 32, `Dynamic` = 64, `Slice` = span of an
encoded `References`); other kinds compute `n` and then apply the
`n > len(p)` check.  A plain schema whose kind is Slice or Array would
dereference its nil element in Go (`nilDeref`); a plain schema of kind
Struct has no fields, so its size is 0. -/
def SchemaSize : Schema → List Nat → Except SErr Nat
  | .refS rt _ _, p =>
    if rt = 1 then .ok 32
    else if rt = 2 then refsSize p
    else if rt = 3 then .ok 64
    else .error .invalidRefType
  | .plain k _, p =>
    if 0 < fixedSize k then sizeChecked p (fixedSize k).toNat
    else if k = kString then
      match getLength p with
      | .error e => .error e
      | .ok l => sizeChecked p (l + 4)
    else if k = kSlice ∨ k = kArray then .error .nilDeref
    else if k = kStruct then sizeChecked p 0
    else .error .invalidSchema
  | .sliceS _ el, p =>
    match getLength p with
    | .error e => .error e
    | .ok l =>
      match schemaArraySliceSize el l 4 p with
      | .error e => .error e
      | .ok n => sizeChecked p n
  | .arrayS _ len el, p =>
    match schemaArraySliceSize el len 0 p with
    | .error e => .error e
    | .ok n => sizeChecked p n
  | .structS _ fs, p =>
    match structSizeLoop fs 0 p with
    | .error e => .error e
    | .ok n => sizeChecked p n
termination_by s _ => (sizeOf s, 0, 0)

/-- `schemaArraySliceSize` (src/unnamed/part_002 lines 164-185): the
fixed-element fast path, or the element-by-element walk. -/
def schemaArraySliceSize (el : Schema) (l shift : Nat) (p : List Nat) :
    Except SErr Nat :=
  if 0 < fixedSize el.kind then .ok (shift + l * (fixedSize el.kind).toNat)
  else sizeLoop el l shift p
termination_by (sizeOf el, 1, l + 1)

/-- The `for i := 0; i < l; i++` walk of `schemaArraySliceSize`, with the
`n >= len(p)` guard before each element. -/
def sizeLoop (el : Schema) : Nat → Nat → List Nat → Except SErr Nat
  | 0, n, _ => .ok n
  | i + 1, n, p =>
    if p.length ≤ n then .error .invalidSchemaOrData
    else
      match SchemaSize el (p.drop n) with
      | .error e => .error e
      | .ok m => sizeLoop el i (n + m) p
termination_by i _ _ => (sizeOf el, 1, i)

/-- The field walk of `schemaStructSize` (src/unnamed/part_002 lines
189-203), with the `n >= len(p)` guard before each field. -/
def structSizeLoop :
    List (List Nat × List Nat × Schema) → Nat → List Nat → Except SErr Nat
  | [], n, _ => .ok n
  | (_, _, sch) :: fs, n, p =>
    if p.length ≤ n then .error .invalidSchemaOrData
    else
      match SchemaSize sch (p.drop n) with
      | .error e => .error e
      | .ok m => structSizeLoop fs (n + m) p
termination_by fs _ _ => (sizeOf fs, 0, 0)

end

/-- `schemaStructSize`: size of a structure, walking its fields. -/
def schemaStructSize (fs : List (List Nat × List Nat × Schema))
    (p : List Nat) : Except SErr Nat :=
  structSizeLoop fs 0 p

/-! ## Values and the generic value encoder

A `Val` is the shape-level abstraction of a Go value the generic encoder
can serialize: fixed-width scalars (held as their encoded bytes), strings,
slices, arrays, structs (their exported fields in order), and the three
reference wrappers (32-byte digests; a `Dynamic` is a pair of digests). -/

inductive Val
  | prim (kind : Nat) (bytes : List Nat)
  | str (bytes : List Nat)
  | vslice (elems : List Val)
  | varr (elems : List Val)
  | vstruct (fields : List Val)
  | vrefSingle (dig : List Nat)
  | vrefs (digs : List (List Nat))
  | vrefDyn (d1 d2 : List Nat)

mutual

/-- `encoder.Serialize` for a value: scalars are their fixed-width bytes,
strings and byte/element slices get a 4-byte count prefix, arrays and
structs are the bare concatenation of their parts, references are raw
digests (`References` adds the slice count prefix). -/
def encodeVal : Val → List Nat
  | .prim _ bs => bs
  | .str bs => le32 bs.length ++ bs
  | .vslice vs => le32 vs.length ++ encodeList vs
  | .varr vs => encodeList vs
  | .vstruct vs => encodeList vs
  | .vrefSingle d => d
  | .vrefs ds => le32 ds.length ++ ds.flatten
  | .vrefDyn a b => a ++ b

def encodeList : List Val → List Nat
  | [] => []
  | v :: vs => encodeVal v ++ encodeList vs

end

mutual

/-- `conformsB s v`: the value `v` is encodable under schema `s` — the
pairing that holds whenever the Go value of a registered type is
serialized and its (resolved) schema is `s`.  Lengths below `2 ^ 32`
reflect the encoder's `uint32` length prefixes; the reference cases
require the marker types' kinds not to be fixed-size scalar kinds
(`Reference`, `References` and `Dynamic` are composite Go types). -/
def conformsB : Schema → Val → Bool
  | .plain k _, .prim k' bs =>
    k == k' && decide (0 < fixedSize k) && bs.length == (fixedSize k).toNat
  | .plain k _, .str bs => k == kString && decide (bs.length < 2 ^ 32)
  | .sliceS _ el, .vslice vs => decide (vs.length < 2 ^ 32) && conformsList el vs
  | .arrayS _ l el, .varr vs => vs.length == l && conformsList el vs
  | .structS _ fs, .vstruct vs => conformsFields fs vs
  | .refS rt k _, .vrefSingle d =>
    rt == 1 && decide (fixedSize k ≤ 0) && d.length == 32
  | .refS rt k _, .vrefs ds =>
    rt == 2 && decide (fixedSize k ≤ 0) && decide (ds.length < 2 ^ 32) &&
      ds.all (fun d => d.length == 32)
  | .refS rt k _, .vrefDyn a b =>
    rt == 3 && decide (fixedSize k ≤ 0) && a.length == 32 && b.length == 32
  | _, _ => false
termination_by s v => (sizeOf s, sizeOf v)

def conformsList : Schema → List Val → Bool
  | _, [] => true
  | el, v :: vs => conformsB el v && conformsList el vs
termination_by el vs => (sizeOf el, sizeOf vs)

def conformsFields : List (List Nat × List Nat × Schema) → List Val → Bool
  | [], [] => true
  | (_, _, sch) :: fs, v :: vs => conformsB sch v && conformsFields fs vs
  | _, _ => false
termination_by fs vs => (sizeOf fs, sizeOf vs)

end

mutual

/-- `noZero v`: no element of an array/slice and no field of a struct
anywhere inside `v` has an empty encoding.  (Zero-size components — empty
structs, zero-length arrays — are the inputs on which the size engine's
walk guard misfires; see the C1 analysis.) -/
def noZero : Val → Bool
  | .vslice vs => noZeroList vs
  | .varr vs => noZeroList vs
  | .vstruct vs => noZeroList vs
  | _ => true

def noZeroList : List Val → Bool
  | [] => true
  | v :: vs => decide (0 < (encodeVal v).length) && noZero v && noZeroList vs

end

/-! ## Size-engine correctness lemmas -/

theorem sizeChecked_ok {p : List Nat} {m n : Nat}
    (h : sizeChecked p m = .ok n) : n = m ∧ m ≤ p.length := by
  unfold sizeChecked at h
  split at h
  · exact absurd h (by simp)
  · rename_i hc
    simp only [Except.ok.injEq] at h
    omega

theorem sizeChecked_of_le {p : List Nat} {m : Nat} (h : m ≤ p.length) :
    sizeChecked p m = .ok m := by
  unfold sizeChecked
  rw [if_neg (by omega)]

theorem getLength_append (n : Nat) (r : List Nat) (h : n < 2 ^ 32) :
    getLength (le32 n ++ r) = .ok n := by
  unfold getLength
  rw [if_neg (by simp [le32_length]), byteLE4_le32 _ _ h]

theorem encodeList_cons (v : Val) (vs : List Val) :
    encodeList (v :: vs) = encodeVal v ++ encodeList vs := by
  simp [encodeList]

theorem conformsList_cons {el : Schema} {v : Val} {vs : List Val}
    (h : conformsList el (v :: vs) = true) :
    conformsB el v = true ∧ conformsList el vs = true := by
  simp only [conformsList, Bool.and_eq_true] at h
  exact h

theorem conformsFields_length :
    ∀ {fs : List (List Nat × List Nat × Schema)} {vs : List Val},
    conformsFields fs vs = true → fs.length = vs.length := by
  intro fs
  induction fs with
  | nil => intro vs h; cases vs with
    | nil => rfl
    | cons v vs => simp [conformsFields] at h
  | cons f fs ih =>
    intro vs h
    obtain ⟨fn, ft, fsch⟩ := f
    cases vs with
    | nil => simp [conformsFields] at h
    | cons v vs =>
      simp only [conformsFields, Bool.and_eq_true] at h
      simp [ih h.2]

theorem flatten_length_of_all32 :
    ∀ {ds : List (List Nat)}, ds.all (fun d => d.length == 32) = true →
    ds.flatten.length = 32 * ds.length := by
  intro ds
  induction ds with
  | nil => intro _; rfl
  | cons d ds ih =>
    intro h
    simp only [List.all_cons, Bool.and_eq_true, beq_iff_eq] at h
    simp [h.1, ih (by simpa using h.2)]
    ring

theorem fixed_encode_length :
    ∀ {el : Schema} {v : Val}, conformsB el v = true →
    0 < fixedSize el.kind → (encodeVal v).length = (fixedSize el.kind).toNat := by
  intro el v hc hf
  cases el with
  | plain k nm =>
    cases v with
    | prim k' bs =>
      simp only [conformsB, Bool.and_eq_true, beq_iff_eq, decide_eq_true_eq] at hc
      simpa [encodeVal, Schema.kind] using hc.2
    | str bs =>
      simp only [conformsB, Bool.and_eq_true, beq_iff_eq, decide_eq_true_eq] at hc
      rw [Schema.kind] at hf
      rw [hc.1] at hf
      exact absurd hf (by decide)
    | vslice vs => simp [conformsB] at hc
    | varr vs => simp [conformsB] at hc
    | vstruct vs => simp [conformsB] at hc
    | vrefSingle d => simp [conformsB] at hc
    | vrefs ds => simp [conformsB] at hc
    | vrefDyn a b => simp [conformsB] at hc
  | sliceS nm el' =>
    rw [Schema.kind] at hf
    exact absurd hf (by decide)
  | arrayS nm l el' =>
    rw [Schema.kind] at hf
    exact absurd hf (by decide)
  | structS nm fs =>
    rw [Schema.kind] at hf
    exact absurd hf (by decide)
  | refS rt k elem =>
    rw [Schema.kind] at hf
    cases v with
    | vrefSingle d =>
      simp only [conformsB, Bool.and_eq_true, beq_iff_eq, decide_eq_true_eq] at hc
      omega
    | vrefs ds =>
      simp only [conformsB, Bool.and_eq_true, beq_iff_eq, decide_eq_true_eq] at hc
      omega
    | vrefDyn a b =>
      simp only [conformsB, Bool.and_eq_true, beq_iff_eq, decide_eq_true_eq] at hc
      omega
    | prim k' bs => simp [conformsB] at hc
    | str bs => simp [conformsB] at hc
    | vslice vs => simp [conformsB] at hc
    | varr vs => simp [conformsB] at hc
    | vstruct vs => simp [conformsB] at hc

theorem encodeList_length_fixed :
    ∀ {el : Schema} {vs : List Val}, conformsList el vs = true →
    0 < fixedSize el.kind →
    (encodeList vs).length = vs.length * (fixedSize el.kind).toNat := by
  intro el vs
  induction vs with
  | nil => intro _ _; simp [encodeList]
  | cons v vs ih =>
    intro hc hf
    obtain ⟨h1, h2⟩ := conformsList_cons hc
    rw [encodeList_cons]
    simp only [List.length_append, List.length_cons]
    rw [fixed_encode_length h1 hf, ih h2 hf]
    ring

/-- On a buffer whose tail (from offset `k`) starts with the encodings of
`vs`, the element walk — when it succeeds — consumes exactly those
encodings. -/
theorem sizeLoop_ok (el : Schema) (vs : List Val)
    (IH : ∀ v ∈ vs, ∀ rest n, SchemaSize el (encodeVal v ++ rest) = .ok n →
      n = (encodeVal v).length) :
    ∀ (k : Nat) (p rest : List Nat), p.drop k = encodeList vs ++ rest →
    k ≤ p.length → ∀ n, sizeLoop el vs.length k p = .ok n →
    n = k + (encodeList vs).length := by
  induction vs with
  | nil =>
    intro k p rest hk hke n h
    simp only [List.length_nil, sizeLoop, Except.ok.injEq] at h
    simp [encodeList, ← h]
  | cons v vs ih =>
    intro k p rest hk hke n h
    have hdl : (p.drop k).length = p.length - k := by simp
    rw [hk] at hdl
    simp only [List.length_cons] at h
    rw [sizeLoop] at h
    split at h
    · exact absurd h (by simp)
    · rename_i hguard
      split at h
      · exact absurd h (by simp)
      · rename_i m hS
        rw [hk, encodeList_cons, List.append_assoc] at hS
        have hm := IH v (List.mem_cons_self v vs) _ _ hS
        subst hm
        have hrec := ih (fun w hw => IH w (List.mem_cons_of_mem v hw))
          (k + (encodeVal v).length) p rest ?_ ?_ n h
        · rw [hrec, encodeList_cons]
          simp
          omega
        · rw [← List.drop_drop, hk, encodeList_cons, List.append_assoc,
            drop_len_append _ _ _ rfl]
        · rw [encodeList_cons] at hdl
          simp only [List.length_append] at hdl
          omega

/-- On a buffer whose tail (from offset `k`) starts with the encodings of
the field values `vs`, the field walk — when it succeeds — consumes
exactly those encodings. -/
theorem structSizeLoop_ok (fs : List (List Nat × List Nat × Schema)) (vs : List Val)
    (IH : ∀ pr ∈ fs.zip vs, ∀ rest n,
      SchemaSize pr.1.2.2 (encodeVal pr.2 ++ rest) = .ok n →
      n = (encodeVal pr.2).length)
    (hl : fs.length = vs.length) :
    ∀ (k : Nat) (p rest : List Nat), p.drop k = encodeList vs ++ rest →
    k ≤ p.length → ∀ n, structSizeLoop fs k p = .ok n →
    n = k + (encodeList vs).length := by
  induction fs generalizing vs with
  | nil =>
    intro k p rest hk hke n h
    cases vs with
    | nil =>
      simp only [structSizeLoop, Except.ok.injEq] at h
      simp [encodeList, ← h]
    | cons v vs => simp at hl
  | cons f fs ih =>
    intro k p rest hk hke n h
    obtain ⟨fn, ft, fsch⟩ := f
    cases vs with
    | nil => simp at hl
    | cons v vs =>
      have hdl : (p.drop k).length = p.length - k := by simp
      rw [hk] at hdl
      rw [structSizeLoop] at h
      split at h
      · exact absurd h (by simp)
      · rename_i hguard
        split at h
        · exact absurd h (by simp)
        · rename_i m hS
          rw [hk, encodeList_cons, List.append_assoc] at hS
          have hm := IH ((fn, ft, fsch), v) (by simp [List.zip]) _ _ hS
          simp only at hm
          subst hm
          have hrec := ih vs
            (fun pr hpr => IH pr (by simp [List.zip] at hpr ⊢; exact .inr hpr))
            (by simpa using hl) (k + (encodeVal v).length) p rest ?_ ?_ n h
          · rw [hrec, encodeList_cons]
            simp
            omega
          · rw [← List.drop_drop, hk, encodeList_cons, List.append_assoc,
              drop_len_append _ _ _ rfl]
          · rw [encodeList_cons] at hdl
            simp only [List.length_append] at hdl
            omega

theorem conformsList_mem : ∀ {el : Schema} {vs : List Val},
    conformsList el vs = true → ∀ v ∈ vs, conformsB el v = true := by
  intro el vs
  induction vs with
  | nil => intro _ v hv; cases hv
  | cons w ws ih =>
    intro h v hv
    obtain ⟨h1, h2⟩ := conformsList_cons h
    rcases List.mem_cons.mp hv with rfl | hv
    · exact h1
    · exact ih h2 _ hv

theorem conformsFields_zip :
    ∀ {fs : List (List Nat × List Nat × Schema)} {vs : List Val},
    conformsFields fs vs = true →
    ∀ pr ∈ fs.zip vs, conformsB pr.1.2.2 pr.2 = true := by
  intro fs
  induction fs with
  | nil => intro vs _ pr hpr; simp at hpr
  | cons f fs ih =>
    intro vs h pr hpr
    obtain ⟨fn, ft, fsch⟩ := f
    cases vs with
    | nil => simp [conformsFields] at h
    | cons v vs =>
      simp only [conformsFields, Bool.and_eq_true] at h
      simp only [List.zip_cons_cons, List.mem_cons] at hpr
      rcases hpr with rfl | hpr
      · exact h.1
      · exact ih h.2 pr hpr

theorem schemaSize_ok_exact_aux :
    ∀ (N : Nat) (s : Schema) (v : Val), sizeOf v ≤ N → conformsB s v = true →
    ∀ (rest : List Nat) (n : Nat),
    SchemaSize s (encodeVal v ++ rest) = .ok n → n = (encodeVal v).length := by
  intro N
  induction N with
  | zero =>
    intro s v hN
    exfalso
    cases v <;> simp at hN
  | succ N ih =>
  intro s v hN hc
  cases s with
  | plain k nm =>
    cases v with
    | prim k' bs =>
      intro rest n h
      simp only [conformsB, Bool.and_eq_true, beq_iff_eq, decide_eq_true_eq] at hc
      obtain ⟨⟨hk, hf⟩, hlen⟩ := hc
      simp only [SchemaSize] at h
      rw [if_pos hf] at h
      have hn := (sizeChecked_ok h).1
      simp only [encodeVal]
      rw [hn, ← hlen]
    | str bs =>
      intro rest n h
      simp only [conformsB, Bool.and_eq_true, beq_iff_eq, decide_eq_true_eq] at hc
      obtain ⟨hk, hlen⟩ := hc
      subst hk
      simp only [SchemaSize, if_true] at h
      simp only [encodeVal, List.append_assoc] at h ⊢
      rw [getLength_append _ _ hlen] at h
      have hn := (sizeChecked_ok h).1
      simp only [List.length_append, le32_length]
      omega
    | vslice vs => simp [conformsB] at hc
    | varr vs => simp [conformsB] at hc
    | vstruct vs => simp [conformsB] at hc
    | vrefSingle d => simp [conformsB] at hc
    | vrefs ds => simp [conformsB] at hc
    | vrefDyn a b => simp [conformsB] at hc
  | sliceS nm el =>
    cases v with
    | vslice vs =>
      intro rest n h
      simp only [conformsB, Bool.and_eq_true, decide_eq_true_eq] at hc
      obtain ⟨hlt, hcl⟩ := hc
      simp only [SchemaSize, encodeVal, List.append_assoc] at h ⊢
      rw [getLength_append _ _ hlt] at h
      have h' : (match schemaArraySliceSize el vs.length 4
          (le32 vs.length ++ (encodeList vs ++ rest)) with
        | .error e => (.error e : Except SErr Nat)
        | .ok n' => sizeChecked (le32 vs.length ++ (encodeList vs ++ rest)) n') =
          .ok n := h
      rw [schemaArraySliceSize] at h'
      by_cases hf : 0 < fixedSize el.kind
      · rw [if_pos hf] at h'
        have hn := (sizeChecked_ok h').1
        have hfx := encodeList_length_fixed hcl hf
        simp only [List.length_append, le32_length]
        omega
      · rw [if_neg hf] at h'
        cases hS : sizeLoop el vs.length 4 (le32 vs.length ++ (encodeList vs ++ rest)) with
        | error e => rw [hS] at h'; exact absurd h' (by simp)
        | ok n' =>
          rw [hS] at h'
          have hn := (sizeChecked_ok h').1
          have hw := sizeLoop_ok el vs
            (fun w hw => by
              have hsz := List.sizeOf_lt_of_mem hw
              have hN' : sizeOf vs ≤ N := by
                simp only [Val.vslice.sizeOf_spec] at hN; omega
              exact ih el w (by omega) (conformsList_mem hcl w hw))
            4 (le32 vs.length ++ (encodeList vs ++ rest)) rest
            (drop_len_append _ _ _ (le32_length _)) (by simp [le32_length]) n' hS
          simp only [List.length_append, le32_length]
          omega
    | prim k bs => simp [conformsB] at hc
    | str bs => simp [conformsB] at hc
    | varr vs => simp [conformsB] at hc
    | vstruct vs => simp [conformsB] at hc
    | vrefSingle d => simp [conformsB] at hc
    | vrefs ds => simp [conformsB] at hc
    | vrefDyn a b => simp [conformsB] at hc
  | arrayS nm l el =>
    cases v with
    | varr vs =>
      intro rest n h
      simp only [conformsB, Bool.and_eq_true, beq_iff_eq, decide_eq_true_eq] at hc
      obtain ⟨hl, hcl⟩ := hc
      subst hl
      simp only [SchemaSize, encodeVal] at h ⊢
      have h' : (match schemaArraySliceSize el vs.length 0 (encodeList vs ++ rest) with
        | .error e => (.error e : Except SErr Nat)
        | .ok n' => sizeChecked (encodeList vs ++ rest) n') = .ok n := h
      rw [schemaArraySliceSize] at h'
      by_cases hf : 0 < fixedSize el.kind
      · rw [if_pos hf] at h'
        have hn := (sizeChecked_ok h').1
        rw [hn, encodeList_length_fixed hcl hf]
        omega
      · rw [if_neg hf] at h'
        cases hS : sizeLoop el vs.length 0 (encodeList vs ++ rest) with
        | error e => rw [hS] at h'; exact absurd h' (by simp)
        | ok n' =>
          rw [hS] at h'
          have hn := (sizeChecked_ok h').1
          have hw := sizeLoop_ok el vs
            (fun w hw => by
              have hsz := List.sizeOf_lt_of_mem hw
              have hN' : sizeOf vs ≤ N := by
                simp only [Val.varr.sizeOf_spec] at hN; omega
              exact ih el w (by omega) (conformsList_mem hcl w hw))
            0 (encodeList vs ++ rest) rest (by simp) (by simp) n' hS
          omega
    | prim k bs => simp [conformsB] at hc
    | str bs => simp [conformsB] at hc
    | vslice vs => simp [conformsB] at hc
    | vstruct vs => simp [conformsB] at hc
    | vrefSingle d => simp [conformsB] at hc
    | vrefs ds => simp [conformsB] at hc
    | vrefDyn a b => simp [conformsB] at hc
  | structS nm fs =>
    cases v with
    | vstruct vs =>
      intro rest n h
      simp only [conformsB] at hc
      simp only [SchemaSize, encodeVal] at h ⊢
      cases hS : structSizeLoop fs 0 (encodeList vs ++ rest) with
      | error e => rw [hS] at h; exact absurd h (by simp)
      | ok n' =>
        rw [hS] at h
        have hn := (sizeChecked_ok h).1
        have hw := structSizeLoop_ok fs vs
          (fun pr hpr => by
            have hmem := (List.of_mem_zip hpr).2
            have hsz := List.sizeOf_lt_of_mem hmem
            have hN' : sizeOf vs ≤ N := by
              simp only [Val.vstruct.sizeOf_spec] at hN; omega
            exact ih pr.1.2.2 pr.2 (by omega) (conformsFields_zip hc pr hpr))
          (conformsFields_length hc)
          0 (encodeList vs ++ rest) rest (by simp) (by simp) n' hS
        omega
    | prim k bs => simp [conformsB] at hc
    | str bs => simp [conformsB] at hc
    | vslice vs => simp [conformsB] at hc
    | varr vs => simp [conformsB] at hc
    | vrefSingle d => simp [conformsB] at hc
    | vrefs ds => simp [conformsB] at hc
    | vrefDyn a b => simp [conformsB] at hc
  | refS rt k elem =>
    cases v with
    | vrefSingle d =>
      intro rest n h
      simp only [conformsB, Bool.and_eq_true, beq_iff_eq, decide_eq_true_eq] at hc
      obtain ⟨⟨hrt, _⟩, hd⟩ := hc
      subst hrt
      simp [SchemaSize] at h
      simp [encodeVal, hd]
      omega
    | vrefs ds =>
      intro rest n h
      simp only [conformsB, Bool.and_eq_true, beq_iff_eq, decide_eq_true_eq] at hc
      obtain ⟨⟨⟨hrt, _⟩, hlt⟩, hall⟩ := hc
      subst hrt
      simp [SchemaSize] at h
      simp only [encodeVal, List.append_assoc] at h ⊢
      have hfl := flatten_length_of_all32 hall
      simp only [refsSize] at h
      split at h
      · exact absurd h (by simp)
      · rw [byteLE4_le32 _ _ hlt] at h
        split at h
        · exact absurd h (by simp)
        · simp only [Except.ok.injEq] at h
          simp only [List.length_append, le32_length, hfl]
          omega
    | vrefDyn a b =>
      intro rest n h
      simp only [conformsB, Bool.and_eq_true, beq_iff_eq, decide_eq_true_eq] at hc
      obtain ⟨⟨⟨hrt, _⟩, ha⟩, hb⟩ := hc
      subst hrt
      simp [SchemaSize] at h
      simp [encodeVal, ha, hb]
      omega
    | prim k' bs => simp [conformsB] at hc
    | str bs => simp [conformsB] at hc
    | vslice vs => simp [conformsB] at hc
    | varr vs => simp [conformsB] at hc
    | vstruct vs => simp [conformsB] at hc

/-- Weak exactness: whenever the size engine succeeds on a buffer that
begins with the encoding of a conforming value, the size it returns is
exactly the encoding's length, whatever follows the encoding. -/
theorem schemaSize_ok_exact (s : Schema) (v : Val) (hc : conformsB s v = true)
    (rest : List Nat) (n : Nat)
    (h : SchemaSize s (encodeVal v ++ rest) = .ok n) :
    n = (encodeVal v).length :=
  schemaSize_ok_exact_aux (sizeOf v) s v le_rfl hc rest n h

theorem noZeroList_cons {v : Val} {vs : List Val}
    (h : noZeroList (v :: vs) = true) :
    0 < (encodeVal v).length ∧ noZero v = true ∧ noZeroList vs = true := by
  simp only [noZeroList, Bool.and_eq_true, decide_eq_true_eq] at h
  exact ⟨h.1.1, h.1.2, h.2⟩

theorem noZeroList_mem : ∀ {vs : List Val}, noZeroList vs = true →
    ∀ v ∈ vs, 0 < (encodeVal v).length ∧ noZero v = true := by
  intro vs
  induction vs with
  | nil => intro _ v hv; cases hv
  | cons w ws ih =>
    intro h v hv
    obtain ⟨h1, h2, h3⟩ := noZeroList_cons h
    rcases List.mem_cons.mp hv with rfl | hv
    · exact ⟨h1, h2⟩
    · exact ih h3 _ hv

/-- The element walk succeeds and consumes exactly the element encodings
whenever every element has a positive-size encoding and the engine is
exact on each element. -/
theorem sizeLoop_strong (el : Schema) (vs : List Val)
    (IH : ∀ v ∈ vs, ∀ rest,
      SchemaSize el (encodeVal v ++ rest) = .ok (encodeVal v).length)
    (hpos : ∀ v ∈ vs, 0 < (encodeVal v).length) :
    ∀ (k : Nat) (p rest : List Nat), p.drop k = encodeList vs ++ rest →
    k ≤ p.length →
    sizeLoop el vs.length k p = .ok (k + (encodeList vs).length) := by
  induction vs with
  | nil => intro k p rest hk hke; simp [sizeLoop, encodeList]
  | cons v vs ihl =>
    intro k p rest hk hke
    have hdl : (p.drop k).length = p.length - k := by simp
    rw [hk, encodeList_cons] at hdl
    simp only [List.length_append] at hdl
    have hp := hpos v (List.mem_cons_self v vs)
    simp only [List.length_cons]
    rw [sizeLoop, if_neg (by omega)]
    have hS : SchemaSize el (p.drop k) = .ok (encodeVal v).length := by
      rw [hk, encodeList_cons, List.append_assoc]
      exact IH v (List.mem_cons_self v vs) _
    rw [hS]
    show sizeLoop el vs.length (k + (encodeVal v).length) p =
      .ok (k + (encodeList (v :: vs)).length)
    have hrec := ihl (fun w hw => IH w (List.mem_cons_of_mem v hw))
      (fun w hw => hpos w (List.mem_cons_of_mem v hw))
      (k + (encodeVal v).length) p rest ?_ ?_
    · rw [hrec]
      simp only [encodeList_cons, List.length_append, Except.ok.injEq]
      omega
    · rw [← List.drop_drop, hk, encodeList_cons, List.append_assoc,
        drop_len_append _ _ _ rfl]
    · omega

/-- The field walk succeeds and consumes exactly the field encodings
whenever every field value has a positive-size encoding and the engine is
exact on each field. -/
theorem structSizeLoop_strong (fs : List (List Nat × List Nat × Schema))
    (vs : List Val)
    (IH : ∀ pr ∈ fs.zip vs, ∀ rest,
      SchemaSize pr.1.2.2 (encodeVal pr.2 ++ rest) = .ok (encodeVal pr.2).length)
    (hpos : ∀ v ∈ vs, 0 < (encodeVal v).length)
    (hl : fs.length = vs.length) :
    ∀ (k : Nat) (p rest : List Nat), p.drop k = encodeList vs ++ rest →
    k ≤ p.length →
    structSizeLoop fs k p = .ok (k + (encodeList vs).length) := by
  induction fs generalizing vs with
  | nil =>
    intro k p rest hk hke
    cases vs with
    | nil => simp [structSizeLoop, encodeList]
    | cons v vs => simp at hl
  | cons f fs ihl =>
    intro k p rest hk hke
    obtain ⟨fn, ft, fsch⟩ := f
    cases vs with
    | nil => simp at hl
    | cons v vs =>
      have hdl : (p.drop k).length = p.length - k := by simp
      rw [hk, encodeList_cons] at hdl
      simp only [List.length_append] at hdl
      have hp := hpos v (List.mem_cons_self v vs)
      rw [structSizeLoop, if_neg (by omega)]
      have hS : SchemaSize fsch (p.drop k) = .ok (encodeVal v).length := by
        rw [hk, encodeList_cons, List.append_assoc]
        exact IH ((fn, ft, fsch), v) (by simp) _
      rw [hS]
      show structSizeLoop fs (k + (encodeVal v).length) p =
        .ok (k + (encodeList (v :: vs)).length)
      have hrec := ihl vs
        (fun pr hpr => IH pr (by simp at hpr ⊢; exact .inr hpr))
        (fun w hw => hpos w (List.mem_cons_of_mem v hw))
        (by simpa using hl)
        (k + (encodeVal v).length) p rest ?_ ?_
      · rw [hrec]
        simp only [encodeList_cons, List.length_append, Except.ok.injEq]
        omega
      · rw [← List.drop_drop, hk, encodeList_cons, List.append_assoc,
          drop_len_append _ _ _ rfl]
      · omega

theorem schemaSize_strong_aux :
    ∀ (N : Nat) (s : Schema) (v : Val), sizeOf v ≤ N → conformsB s v = true →
    noZero v = true → ∀ (rest : List Nat),
    SchemaSize s (encodeVal v ++ rest) = .ok (encodeVal v).length := by
  intro N
  induction N with
  | zero =>
    intro s v hN
    exfalso
    cases v <;> simp at hN
  | succ N ih =>
  intro s v hN hc hz
  cases s with
  | plain k nm =>
    cases v with
    | prim k' bs =>
      intro rest
      simp only [conformsB, Bool.and_eq_true, beq_iff_eq, decide_eq_true_eq] at hc
      obtain ⟨⟨hk, hf⟩, hlen⟩ := hc
      simp only [SchemaSize, encodeVal]
      rw [if_pos hf, ← hlen]
      exact sizeChecked_of_le (by simp)
    | str bs =>
      intro rest
      simp only [conformsB, Bool.and_eq_true, beq_iff_eq, decide_eq_true_eq] at hc
      obtain ⟨hk, hlen⟩ := hc
      subst hk
      simp only [SchemaSize, if_true, encodeVal, List.append_assoc]
      rw [getLength_append _ _ hlen]
      show sizeChecked (le32 bs.length ++ (bs ++ rest)) (bs.length + 4) =
        .ok (le32 bs.length ++ bs).length
      have hle : bs.length + 4 ≤ (le32 bs.length ++ (bs ++ rest)).length := by
        simp only [List.length_append, le32_length]
        omega
      rw [sizeChecked_of_le hle]
      simp only [List.length_append, le32_length, Except.ok.injEq]
      omega
    | vslice vs => simp [conformsB] at hc
    | varr vs => simp [conformsB] at hc
    | vstruct vs => simp [conformsB] at hc
    | vrefSingle d => simp [conformsB] at hc
    | vrefs ds => simp [conformsB] at hc
    | vrefDyn a b => simp [conformsB] at hc
  | sliceS nm el =>
    cases v with
    | vslice vs =>
      intro rest
      simp only [conformsB, Bool.and_eq_true, decide_eq_true_eq] at hc
      obtain ⟨hlt, hcl⟩ := hc
      simp only [noZero] at hz
      simp only [SchemaSize, encodeVal, List.append_assoc]
      rw [getLength_append _ _ hlt]
      have hA : schemaArraySliceSize el vs.length 4
          (le32 vs.length ++ (encodeList vs ++ rest)) =
          .ok (4 + (encodeList vs).length) := by
        rw [schemaArraySliceSize]
        by_cases hf : 0 < fixedSize el.kind
        · rw [if_pos hf, encodeList_length_fixed hcl hf]
        · rw [if_neg hf]
          have hN' : sizeOf vs ≤ N := by
            simp only [Val.vslice.sizeOf_spec] at hN; omega
          exact sizeLoop_strong el vs
            (fun w hw rest' => by
              have hsz := List.sizeOf_lt_of_mem hw
              have hwz := noZeroList_mem hz w hw
              exact ih el w (by omega) (conformsList_mem hcl w hw) hwz.2 rest')
            (fun w hw => (noZeroList_mem hz w hw).1)
            4 (le32 vs.length ++ (encodeList vs ++ rest)) rest
            (drop_len_append _ _ _ (le32_length _)) (by simp [le32_length])
      show (match schemaArraySliceSize el vs.length 4
          (le32 vs.length ++ (encodeList vs ++ rest)) with
        | .error e => (.error e : Except SErr Nat)
        | .ok n => sizeChecked (le32 vs.length ++ (encodeList vs ++ rest)) n) =
        .ok (le32 vs.length ++ encodeList vs).length
      rw [hA]
      show sizeChecked (le32 vs.length ++ (encodeList vs ++ rest))
          (4 + (encodeList vs).length) =
        .ok (le32 vs.length ++ encodeList vs).length
      have hle : 4 + (encodeList vs).length ≤
          (le32 vs.length ++ (encodeList vs ++ rest)).length := by
        simp only [List.length_append, le32_length]
        omega
      rw [sizeChecked_of_le hle]
      simp only [List.length_append, le32_length]
    | prim k bs => simp [conformsB] at hc
    | str bs => simp [conformsB] at hc
    | varr vs => simp [conformsB] at hc
    | vstruct vs => simp [conformsB] at hc
    | vrefSingle d => simp [conformsB] at hc
    | vrefs ds => simp [conformsB] at hc
    | vrefDyn a b => simp [conformsB] at hc
  | arrayS nm l el =>
    cases v with
    | varr vs =>
      intro rest
      simp only [conformsB, Bool.and_eq_true, beq_iff_eq, decide_eq_true_eq] at hc
      obtain ⟨hl, hcl⟩ := hc
      subst hl
      simp only [noZero] at hz
      simp only [SchemaSize, encodeVal]
      have hA : schemaArraySliceSize el vs.length 0 (encodeList vs ++ rest) =
          .ok (0 + (encodeList vs).length) := by
        rw [schemaArraySliceSize]
        by_cases hf : 0 < fixedSize el.kind
        · rw [if_pos hf, encodeList_length_fixed hcl hf]
        · rw [if_neg hf]
          have hN' : sizeOf vs ≤ N := by
            simp only [Val.varr.sizeOf_spec] at hN; omega
          exact sizeLoop_strong el vs
            (fun w hw rest' => by
              have hsz := List.sizeOf_lt_of_mem hw
              have hwz := noZeroList_mem hz w hw
              exact ih el w (by omega) (conformsList_mem hcl w hw) hwz.2 rest')
            (fun w hw => (noZeroList_mem hz w hw).1)
            0 (encodeList vs ++ rest) rest (by simp) (by simp)
      rw [hA]
      show sizeChecked (encodeList vs ++ rest) (0 + (encodeList vs).length) =
        .ok (encodeList vs).length
      rw [Nat.zero_add]
      exact sizeChecked_of_le (by simp)
    | prim k bs => simp [conformsB] at hc
    | str bs => simp [conformsB] at hc
    | vslice vs => simp [conformsB] at hc
    | vstruct vs => simp [conformsB] at hc
    | vrefSingle d => simp [conformsB] at hc
    | vrefs ds => simp [conformsB] at hc
    | vrefDyn a b => simp [conformsB] at hc
  | structS nm fs =>
    cases v with
    | vstruct vs =>
      intro rest
      simp only [conformsB] at hc
      simp only [noZero] at hz
      simp only [SchemaSize, encodeVal]
      have hN' : sizeOf vs ≤ N := by
        simp only [Val.vstruct.sizeOf_spec] at hN; omega
      have hw := structSizeLoop_strong fs vs
        (fun pr hpr rest' => by
          have hmem := (List.of_mem_zip hpr).2
          have hsz := List.sizeOf_lt_of_mem hmem
          have hwz := noZeroList_mem hz pr.2 hmem
          exact ih pr.1.2.2 pr.2 (by omega) (conformsFields_zip hc pr hpr)
            hwz.2 rest')
        (fun w hw => (noZeroList_mem hz w hw).1)
        (conformsFields_length hc)
        0 (encodeList vs ++ rest) rest (by simp) (by simp)
      rw [hw]
      show sizeChecked (encodeList vs ++ rest) (0 + (encodeList vs).length) =
        .ok (encodeList vs).length
      rw [Nat.zero_add]
      exact sizeChecked_of_le (by simp)
    | prim k bs => simp [conformsB] at hc
    | str bs => simp [conformsB] at hc
    | vslice vs => simp [conformsB] at hc
    | varr vs => simp [conformsB] at hc
    | vrefSingle d => simp [conformsB] at hc
    | vrefs ds => simp [conformsB] at hc
    | vrefDyn a b => simp [conformsB] at hc
  | refS rt k elem =>
    cases v with
    | vrefSingle d =>
      intro rest
      simp only [conformsB, Bool.and_eq_true, beq_iff_eq, decide_eq_true_eq] at hc
      obtain ⟨⟨hrt, _⟩, hd⟩ := hc
      subst hrt
      simp [SchemaSize, encodeVal, hd]
    | vrefs ds =>
      intro rest
      simp only [conformsB, Bool.and_eq_true, beq_iff_eq, decide_eq_true_eq] at hc
      obtain ⟨⟨⟨hrt, _⟩, hlt⟩, hall⟩ := hc
      subst hrt
      have hfl := flatten_length_of_all32 hall
      simp only [SchemaSize, encodeVal, List.append_assoc]
      simp only [refsSize]
      have h1 : ¬ ((le32 ds.length ++ (ds.flatten ++ rest)).length < 4) := by
        simp only [List.length_append, le32_length]
        omega
      have h2 : ¬ ((le32 ds.length ++ (ds.flatten ++ rest)).length <
          4 + 32 * ds.length) := by
        simp only [List.length_append, le32_length, hfl]
        omega
      rw [if_neg h1, byteLE4_le32 _ _ hlt, if_neg h2]
      have hsum : (List.map List.length ds).sum = 32 * ds.length := by
        rw [← List.length_flatten, hfl]
      norm_num
      simp only [List.length_append, le32_length, hfl, Except.ok.injEq]
      omega
    | vrefDyn a b =>
      intro rest
      simp only [conformsB, Bool.and_eq_true, beq_iff_eq, decide_eq_true_eq] at hc
      obtain ⟨⟨⟨hrt, _⟩, ha⟩, hb⟩ := hc
      subst hrt
      simp [SchemaSize, encodeVal, ha, hb]
    | prim k' bs => simp [conformsB] at hc
    | str bs => simp [conformsB] at hc
    | vslice vs => simp [conformsB] at hc
    | varr vs => simp [conformsB] at hc
    | vstruct vs => simp [conformsB] at hc

/-- Strong exactness: on a conforming value with no zero-size walked
components, the size engine succeeds and reports exactly the encoding's
length, whatever follows the encoding in the buffer. -/
theorem schemaSize_strong (s : Schema) (v : Val) (hc : conformsB s v = true)
    (hz : noZero v = true) (rest : List Nat) :
    SchemaSize s (encodeVal v ++ rest) = .ok (encodeVal v).length :=
  schemaSize_strong_aux (sizeOf v) s v le_rfl hc hz rest

/-- Claim C1, amended: for every schema `S` and value `V` encodable under
`S` in which no array/slice element and no struct field has a zero-size
encoding, `SchemaSize` on `encode(V)` returns exactly `len(encode(V))`
with no error. -/
theorem schemaSize_exact (s : Schema) (v : Val) (hc : conformsB s v = true)
    (hz : noZero v = true) :
    SchemaSize s (encodeVal v) = .ok (encodeVal v).length := by
  have h := schemaSize_strong s v hc hz []
  rwa [List.append_nil] at h

/-- Witness for the amended C1 at a concrete struct of one uint32 field. -/
theorem schemaSize_exact_witness :
    SchemaSize (.structS [] [([70], [], .plain kUint32 [])])
        (encodeVal (.vstruct [.prim kUint32 [9, 9, 9, 9]])) =
      .ok (encodeVal (.vstruct [.prim kUint32 [9, 9, 9, 9]])).length :=
  schemaSize_exact _ _
    (by simp [conformsB, conformsFields, fixedSize, kUint32, kBool, kInt8,
      kUint8, kInt16, kUint16, kInt32, kFloat32, kInt64, kUint64, kFloat64])
    (by simp [noZero, noZeroList, encodeVal, encodeList])

/-- Counterexample to C1 as stated: the slice-of-empty-struct schema and
its conforming one-element value.  The encoding is just the count prefix
`[1, 0, 0, 0]` (the element encodes to zero bytes), and `SchemaSize`
reports `ErrInvalidSchemaOrData` instead of returning 4: the walk guard
`n >= len(p)` fires before the zero-size element. -/
theorem schemaSize_exact_cex :
    conformsB (.sliceS [] (.structS [] [])) (.vslice [.vstruct []]) = true ∧
    encodeVal (.vslice [.vstruct []]) = [1, 0, 0, 0] ∧
    SchemaSize (.sliceS [] (.structS [] []))
        (encodeVal (.vslice [.vstruct []])) = .error .invalidSchemaOrData := by
  refine ⟨by simp [conformsB, conformsList, conformsFields], ?_, ?_⟩
  · simp [encodeVal, encodeList, le32]
  · have he : encodeVal (.vslice [.vstruct []]) = [1, 0, 0, 0] := by
      simp [encodeVal, encodeList, le32]
    rw [he]
    simp [SchemaSize, schemaArraySliceSize, sizeLoop, structSizeLoop, getLength,
      byteLE4, fixedSize, sizeChecked, Schema.kind, kStruct, kBool, kInt8,
      kUint8, kInt16, kUint16, kInt32, kUint32, kFloat32, kInt64, kUint64,
      kFloat64]

/-! ## Truncation safety -/

theorem sizeChecked_err {p : List Nat} {m : Nat} (h : p.length < m) :
    sizeChecked p m = .error .invalidSchemaOrData := by
  unfold sizeChecked
  rw [if_pos h]

theorem getLength_err {p : List Nat} (h : p.length < 4) :
    getLength p = .error .deser := by
  unfold getLength
  rw [if_pos h]

theorem take_append_le32 (x : Nat) (y : List Nat) {L : Nat} (h : 4 ≤ L) :
    (le32 x ++ y).take L = le32 x ++ y.take (L - 4) := by
  rw [List.take_append_eq_append_take,
    List.take_of_length_le (by rw [le32_length]; omega), le32_length]

theorem sizeLoop_stuck (el : Schema) {c k : Nat} {p : List Nat} {n : Nat}
    (hk : p.length ≤ k) (h : sizeLoop el c k p = .ok n) : n = k := by
  cases c with
  | zero =>
    rw [sizeLoop] at h
    simp only [Except.ok.injEq] at h
    omega
  | succ c =>
    rw [sizeLoop, if_pos hk] at h
    exact absurd h (by simp)

theorem structSizeLoop_stuck {fs : List (List Nat × List Nat × Schema)}
    {k : Nat} {p : List Nat} {n : Nat}
    (hk : p.length ≤ k) (h : structSizeLoop fs k p = .ok n) : n = k := by
  cases fs with
  | nil =>
    rw [structSizeLoop] at h
    simp only [Except.ok.injEq] at h
    omega
  | cons f fs =>
    obtain ⟨fn, ft, fsch⟩ := f
    rw [structSizeLoop, if_pos hk] at h
    exact absurd h (by simp)

/-- Truncated element walk: when the buffer from offset `k` on is a strict
prefix of the element encodings and the walk nevertheless succeeds, the
reported size exceeds the buffer length. -/
theorem sizeLoop_trunc (el : Schema) (vs : List Val)
    (IHW : ∀ v ∈ vs, ∀ rest n, SchemaSize el (encodeVal v ++ rest) = .ok n →
      n = (encodeVal v).length)
    (IHT : ∀ v ∈ vs, ∀ L, L < (encodeVal v).length → ∀ n,
      SchemaSize el ((encodeVal v).take L) = .ok n → L < n) :
    ∀ (k : Nat) (p : List Nat),
    p.drop k = (encodeList vs).take (p.length - k) →
    p.length - k < (encodeList vs).length → k ≤ p.length →
    ∀ n, sizeLoop el vs.length k p = .ok n → p.length < n := by
  induction vs with
  | nil =>
    intro k p hk hK hke n h
    simp [encodeList] at hK
  | cons v vs ih =>
    intro k p hk hK hke n h
    simp only [List.length_cons] at h
    rw [sizeLoop] at h
    split at h
    · exact absurd h (by simp)
    · rename_i hguard
      by_cases hcmp : p.length - k < (encodeVal v).length
      · have hdk : p.drop k = (encodeVal v).take (p.length - k) := by
          rw [hk, encodeList_cons, List.take_append_of_le_length (by omega)]
        cases hS : SchemaSize el (p.drop k) with
        | error e => rw [hS] at h; exact absurd h (by simp)
        | ok m =>
          rw [hS] at h
          rw [hdk] at hS
          have hm := IHT v (List.mem_cons_self v vs) _ hcmp m hS
          have hnk := sizeLoop_stuck el (by omega :
            p.length ≤ k + m) h
          omega
      · push_neg at hcmp
        have hdk : p.drop k =
            encodeVal v ++ (encodeList vs).take (p.length - k - (encodeVal v).length) := by
          rw [hk, encodeList_cons, List.take_append_eq_append_take,
            List.take_of_length_le hcmp]
        cases hS : SchemaSize el (p.drop k) with
        | error e => rw [hS] at h; exact absurd h (by simp)
        | ok m =>
          rw [hS] at h
          rw [hdk] at hS
          have hm := IHW v (List.mem_cons_self v vs) _ _ hS
          subst hm
          refine ih (fun w hw => IHW w (List.mem_cons_of_mem v hw))
            (fun w hw => IHT w (List.mem_cons_of_mem v hw))
            (k + (encodeVal v).length) p ?_ ?_ ?_ n h
          · rw [← List.drop_drop, hdk, drop_len_append _ _ _ rfl]
            congr 1
            omega
          · rw [encodeList_cons] at hK
            simp only [List.length_append] at hK
            omega
          · omega

/-- Truncated field walk: the analogue of `sizeLoop_trunc` for struct
fields. -/
theorem structSizeLoop_trunc (fs : List (List Nat × List Nat × Schema))
    (vs : List Val)
    (IHW : ∀ pr ∈ fs.zip vs, ∀ rest n,
      SchemaSize pr.1.2.2 (encodeVal pr.2 ++ rest) = .ok n →
      n = (encodeVal pr.2).length)
    (IHT : ∀ pr ∈ fs.zip vs, ∀ L, L < (encodeVal pr.2).length → ∀ n,
      SchemaSize pr.1.2.2 ((encodeVal pr.2).take L) = .ok n → L < n)
    (hl : fs.length = vs.length) :
    ∀ (k : Nat) (p : List Nat),
    p.drop k = (encodeList vs).take (p.length - k) →
    p.length - k < (encodeList vs).length → k ≤ p.length →
    ∀ n, structSizeLoop fs k p = .ok n → p.length < n := by
  induction fs generalizing vs with
  | nil =>
    intro k p hk hK hke n h
    cases vs with
    | nil => simp [encodeList] at hK
    | cons v vs => simp at hl
  | cons f fs ih =>
    intro k p hk hK hke n h
    obtain ⟨fn, ft, fsch⟩ := f
    cases vs with
    | nil => simp at hl
    | cons v vs =>
      rw [structSizeLoop] at h
      split at h
      · exact absurd h (by simp)
      · rename_i hguard
        by_cases hcmp : p.length - k < (encodeVal v).length
        · have hdk : p.drop k = (encodeVal v).take (p.length - k) := by
            rw [hk, encodeList_cons, List.take_append_of_le_length (by omega)]
          cases hS : SchemaSize fsch (p.drop k) with
          | error e => rw [hS] at h; exact absurd h (by simp)
          | ok m =>
            rw [hS] at h
            rw [hdk] at hS
            have hm := IHT ((fn, ft, fsch), v) (by simp) _ hcmp m hS
            have hnk := structSizeLoop_stuck (by omega :
              p.length ≤ k + m) h
            omega
        · push_neg at hcmp
          have hdk : p.drop k =
              encodeVal v ++
                (encodeList vs).take (p.length - k - (encodeVal v).length) := by
            rw [hk, encodeList_cons, List.take_append_eq_append_take,
              List.take_of_length_le hcmp]
          cases hS : SchemaSize fsch (p.drop k) with
          | error e => rw [hS] at h; exact absurd h (by simp)
          | ok m =>
            rw [hS] at h
            rw [hdk] at hS
            have hm := IHW ((fn, ft, fsch), v) (by simp) _ _ hS
            simp only at hm
            subst hm
            refine ih vs
              (fun pr hpr => IHW pr (by simp at hpr ⊢; exact .inr hpr))
              (fun pr hpr => IHT pr (by simp at hpr ⊢; exact .inr hpr))
              (by simpa using hl)
              (k + (encodeVal v).length) p ?_ ?_ ?_ n h
            · rw [← List.drop_drop, hdk, drop_len_append _ _ _ rfl]
              congr 1
              omega
            · rw [encodeList_cons] at hK
              simp only [List.length_append] at hK
              omega
            · omega

theorem schemaSize_trunc_aux :
    ∀ (N : Nat) (s : Schema) (v : Val), sizeOf v ≤ N → conformsB s v = true →
    ∀ (L : Nat), L < (encodeVal v).length → ∀ (n : Nat),
    SchemaSize s ((encodeVal v).take L) = .ok n → L < n := by
  intro N
  induction N with
  | zero =>
    intro s v hN
    exfalso
    cases v <;> simp at hN
  | succ N ih =>
  intro s v hN hc
  cases s with
  | plain k nm =>
    cases v with
    | prim k' bs =>
      intro L hL n h
      simp only [conformsB, Bool.and_eq_true, beq_iff_eq, decide_eq_true_eq] at hc
      obtain ⟨⟨hk, hf⟩, hlen⟩ := hc
      simp only [encodeVal] at hL
      simp only [SchemaSize, encodeVal] at h
      rw [if_pos hf] at h
      have hn := (sizeChecked_ok h).1
      omega
    | str bs =>
      intro L hL n h
      simp only [conformsB, Bool.and_eq_true, beq_iff_eq, decide_eq_true_eq] at hc
      obtain ⟨hk, hlen⟩ := hc
      subst hk
      simp only [encodeVal, List.length_append, le32_length] at hL
      simp only [SchemaSize, if_true, encodeVal] at h
      by_cases h4 : 4 ≤ L
      · rw [take_append_le32 _ _ h4, getLength_append _ _ hlen] at h
        have hn := (sizeChecked_ok h).1
        omega
      · push_neg at h4
        rw [getLength_err (by
          simp only [List.length_take, List.length_append, le32_length]
          omega)] at h
        simp only [fixedSize_kString] at h
        norm_num at h
        exact absurd h (by simp)
    | vslice vs => simp [conformsB] at hc
    | varr vs => simp [conformsB] at hc
    | vstruct vs => simp [conformsB] at hc
    | vrefSingle d => simp [conformsB] at hc
    | vrefs ds => simp [conformsB] at hc
    | vrefDyn a b => simp [conformsB] at hc
  | sliceS nm el =>
    cases v with
    | vslice vs =>
      intro L hL n h
      simp only [conformsB, Bool.and_eq_true, decide_eq_true_eq] at hc
      obtain ⟨hlt, hcl⟩ := hc
      simp only [encodeVal, List.length_append, le32_length] at hL
      simp only [SchemaSize, encodeVal] at h
      by_cases h4 : 4 ≤ L
      · rw [take_append_le32 _ _ h4, getLength_append _ _ hlt] at h
        have hplen : (le32 vs.length ++ (encodeList vs).take (L - 4)).length = L := by
          simp only [List.length_append, le32_length, List.length_take]
          omega
        have h' : (match schemaArraySliceSize el vs.length 4
            (le32 vs.length ++ (encodeList vs).take (L - 4)) with
          | .error e => (.error e : Except SErr Nat)
          | .ok n' => sizeChecked (le32 vs.length ++ (encodeList vs).take (L - 4)) n') =
            .ok n := h
        rw [schemaArraySliceSize] at h'
        by_cases hf : 0 < fixedSize el.kind
        · rw [if_pos hf] at h'
          have hfx := encodeList_length_fixed hcl hf
          have h'' : sizeChecked (le32 vs.length ++ (encodeList vs).take (L - 4))
              (4 + vs.length * (fixedSize el.kind).toNat) = .ok n := h'
          have hok := (sizeChecked_ok h'').1
          omega
        · rw [if_neg hf] at h'
          cases hS : sizeLoop el vs.length 4
              (le32 vs.length ++ (encodeList vs).take (L - 4)) with
          | error e => rw [hS] at h'; exact absurd h' (by simp)
          | ok n' =>
            have hN' : sizeOf vs ≤ N := by
              simp only [Val.vslice.sizeOf_spec] at hN; omega
            have htr := sizeLoop_trunc el vs
              (fun w hw rest' n'' h'' =>
                schemaSize_ok_exact el w (conformsList_mem hcl w hw) rest' n'' h'')
              (fun w hw L' hL' n'' h'' => by
                have hsz := List.sizeOf_lt_of_mem hw
                exact ih el w (by omega) (conformsList_mem hcl w hw) L' hL' n'' h'')
              4 (le32 vs.length ++ (encodeList vs).take (L - 4))
              (by rw [drop_len_append _ _ _ (le32_length _), hplen])
              (by rw [hplen]; omega) (by omega) n' hS
            rw [hS] at h'
            have h'' : sizeChecked (le32 vs.length ++ (encodeList vs).take (L - 4))
                n' = .ok n := h'
            have hok := (sizeChecked_ok h'').1
            omega
      · push_neg at h4
        rw [getLength_err (by
          simp only [List.length_take, List.length_append, le32_length]
          omega)] at h
        exact absurd h (by simp)
    | prim k bs => simp [conformsB] at hc
    | str bs => simp [conformsB] at hc
    | varr vs => simp [conformsB] at hc
    | vstruct vs => simp [conformsB] at hc
    | vrefSingle d => simp [conformsB] at hc
    | vrefs ds => simp [conformsB] at hc
    | vrefDyn a b => simp [conformsB] at hc
  | arrayS nm l el =>
    cases v with
    | varr vs =>
      intro L hL n h
      simp only [conformsB, Bool.and_eq_true, beq_iff_eq, decide_eq_true_eq] at hc
      obtain ⟨hl, hcl⟩ := hc
      subst hl
      simp only [encodeVal] at hL
      simp only [SchemaSize, encodeVal] at h
      have hplen : ((encodeList vs).take L).length = L := by
        rw [List.length_take]
        omega
      have h' : (match schemaArraySliceSize el vs.length 0
          ((encodeList vs).take L) with
        | .error e => (.error e : Except SErr Nat)
        | .ok n' => sizeChecked ((encodeList vs).take L) n') = .ok n := h
      rw [schemaArraySliceSize] at h'
      by_cases hf : 0 < fixedSize el.kind
      · rw [if_pos hf] at h'
        have hfx := encodeList_length_fixed hcl hf
        have h'' : sizeChecked ((encodeList vs).take L)
            (0 + vs.length * (fixedSize el.kind).toNat) = .ok n := h'
        have hok := (sizeChecked_ok h'').1
        omega
      · rw [if_neg hf] at h'
        cases hS : sizeLoop el vs.length 0 ((encodeList vs).take L) with
        | error e => rw [hS] at h'; exact absurd h' (by simp)
        | ok n' =>
          have hN' : sizeOf vs ≤ N := by
            simp only [Val.varr.sizeOf_spec] at hN; omega
          have htr := sizeLoop_trunc el vs
            (fun w hw rest' n'' h'' =>
              schemaSize_ok_exact el w (conformsList_mem hcl w hw) rest' n'' h'')
            (fun w hw L' hL' n'' h'' => by
              have hsz := List.sizeOf_lt_of_mem hw
              exact ih el w (by omega) (conformsList_mem hcl w hw) L' hL' n'' h'')
            0 ((encodeList vs).take L)
            (by rw [List.drop_zero, hplen]; simp)
            (by rw [hplen]; omega) (by omega) n' hS
          rw [hS] at h'
          have h'' : sizeChecked ((encodeList vs).take L) n' = .ok n := h'
          have hok := (sizeChecked_ok h'').1
          omega
    | prim k bs => simp [conformsB] at hc
    | str bs => simp [conformsB] at hc
    | vslice vs => simp [conformsB] at hc
    | vstruct vs => simp [conformsB] at hc
    | vrefSingle d => simp [conformsB] at hc
    | vrefs ds => simp [conformsB] at hc
    | vrefDyn a b => simp [conformsB] at hc
  | structS nm fs =>
    cases v with
    | vstruct vs =>
      intro L hL n h
      simp only [conformsB] at hc
      simp only [encodeVal] at hL
      simp only [SchemaSize, encodeVal] at h
      have hplen : ((encodeList vs).take L).length = L := by
        rw [List.length_take]
        omega
      cases hS : structSizeLoop fs 0 ((encodeList vs).take L) with
      | error e => rw [hS] at h; exact absurd h (by simp)
      | ok n' =>
        have hN' : sizeOf vs ≤ N := by
          simp only [Val.vstruct.sizeOf_spec] at hN; omega
        have htr := structSizeLoop_trunc fs vs
          (fun pr hpr rest' n'' h'' =>
            schemaSize_ok_exact pr.1.2.2 pr.2 (conformsFields_zip hc pr hpr)
              rest' n'' h'')
          (fun pr hpr L' hL' n'' h'' => by
            have hmem := (List.of_mem_zip hpr).2
            have hsz := List.sizeOf_lt_of_mem hmem
            exact ih pr.1.2.2 pr.2 (by omega) (conformsFields_zip hc pr hpr)
              L' hL' n'' h'')
          (conformsFields_length hc)
          0 ((encodeList vs).take L)
          (by rw [List.drop_zero, hplen]; simp)
          (by rw [hplen]; omega) (by omega) n' hS
        rw [hS] at h
        have h'' : sizeChecked ((encodeList vs).take L) n' = .ok n := h
        have hok := (sizeChecked_ok h'').1
        omega
    | prim k bs => simp [conformsB] at hc
    | str bs => simp [conformsB] at hc
    | vslice vs => simp [conformsB] at hc
    | varr vs => simp [conformsB] at hc
    | vrefSingle d => simp [conformsB] at hc
    | vrefs ds => simp [conformsB] at hc
    | vrefDyn a b => simp [conformsB] at hc
  | refS rt k elem =>
    cases v with
    | vrefSingle d =>
      intro L hL n h
      simp only [conformsB, Bool.and_eq_true, beq_iff_eq, decide_eq_true_eq] at hc
      obtain ⟨⟨hrt, _⟩, hd⟩ := hc
      subst hrt
      simp only [encodeVal] at hL
      simp [SchemaSize] at h
      omega
    | vrefs ds =>
      intro L hL n h
      simp only [conformsB, Bool.and_eq_true, beq_iff_eq, decide_eq_true_eq] at hc
      obtain ⟨⟨⟨hrt, _⟩, hlt⟩, hall⟩ := hc
      subst hrt
      have hfl := flatten_length_of_all32 hall
      simp only [encodeVal, List.length_append, le32_length, hfl] at hL
      simp [SchemaSize, encodeVal] at h
      by_cases h4 : 4 ≤ L
      · rw [take_append_le32 _ _ h4] at h
        simp only [refsSize] at h
        split at h
        · exact absurd h (by simp)
        · rename_i hlt4
          rw [byteLE4_le32 _ _ hlt] at h
          split at h
          · exact absurd h (by simp)
          · rename_i hge
            exfalso
            apply hge
            simp only [List.length_append, le32_length, List.length_take, hfl]
            omega
      · push_neg at h4
        simp only [refsSize] at h
        split at h
        · exact absurd h (by simp)
        · rename_i hcon
          exact absurd (by
            simp only [List.length_take, List.length_append, le32_length, hfl]
            omega) hcon
    | vrefDyn a b =>
      intro L hL n h
      simp only [conformsB, Bool.and_eq_true, beq_iff_eq, decide_eq_true_eq] at hc
      obtain ⟨⟨⟨hrt, _⟩, ha⟩, hb⟩ := hc
      subst hrt
      simp only [encodeVal, List.length_append] at hL
      simp [SchemaSize] at h
      omega
    | prim k' bs => simp [conformsB] at hc
    | str bs => simp [conformsB] at hc
    | vslice vs => simp [conformsB] at hc
    | varr vs => simp [conformsB] at hc
    | vstruct vs => simp [conformsB] at hc

/-- Claim C2: for every schema `S`, conforming value `V` and strict
truncation of `encode(V)` to `L` bytes, `SchemaSize` either reports a
failure or returns a size strictly greater than `L` — never a size that
falsely validates the truncated buffer. -/
theorem schemaSize_truncation (s : Schema) (v : Val) (hc : conformsB s v = true)
    (L : Nat) (hL : L < (encodeVal v).length) :
    (∃ e, SchemaSize s ((encodeVal v).take L) = .error e) ∨
    (∃ n, SchemaSize s ((encodeVal v).take L) = .ok n ∧ L < n) := by
  cases hres : SchemaSize s ((encodeVal v).take L) with
  | error e => exact .inl ⟨e, rfl⟩
  | ok n =>
    exact .inr ⟨n, rfl,
      schemaSize_trunc_aux (sizeOf v) s v le_rfl hc L hL n hres⟩

/-- Witness for C2: a uint32 truncated to two bytes. -/
theorem schemaSize_truncation_witness :
    (∃ e, SchemaSize (.plain kUint32 [])
        ((encodeVal (.prim kUint32 [1, 2, 3, 4])).take 2) = .error e) ∨
    (∃ n, SchemaSize (.plain kUint32 [])
        ((encodeVal (.prim kUint32 [1, 2, 3, 4])).take 2) = .ok n ∧ 2 < n) :=
  schemaSize_truncation (.plain kUint32 []) (.prim kUint32 [1, 2, 3, 4])
    (by simp [conformsB, fixedSize, kUint32, kBool, kInt8, kUint8, kInt16,
      kUint16, kInt32, kFloat32, kInt64, kUint64, kFloat64])
    2 (by simp [encodeVal])

/-! ## Schema codec: encoding (modelled) and the canonical registry
encoding (src/unnamed/part_001) -/

/-- Serialization of the `encodedSchema` record documented inside
`decodeSchema` (src/unnamed/part_001 lines 462-469): ReferenceType and
Kind as `uint32`, Name as length-prefixed bytes, Len as `uint32`, Fields
as a count-prefixed list of length-prefixed byte blocks, Elem as
length-prefixed bytes. -/
def serializeEncodedSchema (rt kind : Nat) (name : List Nat) (len : Nat)
    (fields : List (List Nat)) (elem : List Nat) : List Nat :=
  le32 rt ++ le32 kind ++ (le32 name.length ++ name) ++ le32 len ++
    (le32 fields.length ++ (fields.map (fun f => le32 f.length ++ f)).flatten) ++
    (le32 elem.length ++ elem)

/-- Serialization of the `encodedField` record: Name, Tag, Schema, each
length-prefixed. -/
def serializeEncodedField (name tag sch : List Nat) : List Nat :=
  (le32 name.length ++ name) ++ (le32 tag.length ++ tag) ++
    (le32 sch.length ++ sch)

mutual

/-- Modelled from the spec: `Schema.Encode()` is not among the given
sources (only its inverse `decodeSchema` is).  Per §4.3 of the spec and
the `encodedSchema` layout documented inside `decodeSchema`, a schema is
written as the serialized `encodedSchema` record; a nested *named* schema
is written as its placeholder (kind + name only), never as its full tree
— this is what keeps encoding of cyclic resolved schemas finite. -/
def encodeSchema : Schema → List Nat
  | .plain k nm => serializeEncodedSchema 0 k nm 0 [] []
  | .sliceS nm el =>
    serializeEncodedSchema 0 kSlice nm 0 [] (encodeSchemaChild el)
  | .arrayS nm len el =>
    serializeEncodedSchema 0 kArray nm len [] (encodeSchemaChild el)
  | .structS nm fs => serializeEncodedSchema 0 kStruct nm 0 (encodeFields fs) []
  | .refS rt k elem =>
    serializeEncodedSchema rt k [] 0 []
      (if rt = 3 then []
       else
         match elem with
         | none => []
         | some c => encodeSchemaChild c)

/-- A nested schema position: a named (registered) schema is written as
its placeholder, an anonymous one is encoded in full. -/
def encodeSchemaChild (c : Schema) : List Nat :=
  if c.isRegistered then serializeEncodedSchema 0 c.kind c.name 0 [] []
  else encodeSchema c

def encodeFields : List (List Nat × List Nat × Schema) → List (List Nat)
  | [] => []
  | (n, t, sch) :: fs =>
    serializeEncodedField n t (encodeSchemaChild sch) :: encodeFields fs

end

/-- Modelled from the spec: `cipher.SumSHA256` is the external hash
library's digest.  The claims depend only on it being a pure function of
the byte sequence, so it is modelled as a fixed computable digest. -/
def sumSHA256 (b : List Nat) : List Nat :=
  [b.length % 256, b.foldl (fun a x => (a * 31 + x) % 65536) 7 % 256]

/-- Byte-list lexicographic strict order: Go's string `<` on names. -/
def lexLt : List Nat → List Nat → Bool
  | [], [] => false
  | [], _ :: _ => true
  | _ :: _, [] => false
  | a :: as, b :: bs => decide (a < b) || (a == b && lexLt as bs)

/-- One insertion step of the sort modelling `sort.Sort(registryEntities)`
with `Less i j = r[i].Name < r[j].Name`. -/
def insertEnt (e : List Nat × List Nat) :
    List (List Nat × List Nat) → List (List Nat × List Nat)
  | [] => [e]
  | x :: xs => if lexLt e.1 x.1 then e :: x :: xs else x :: insertEnt e xs

/-- The name-sort of the entity list (`sort.Sort ent` in `Registry.Encode`). -/
def sortEnts : List (List Nat × List Nat) → List (List Nat × List Nat)
  | [] => []
  | e :: es => insertEnt e (sortEnts es)

/-- `encoder.Serialize(registryEntities)`: count prefix, then each entity
as name (string: length-prefixed) followed by schema bytes
(length-prefixed). -/
def serializeEntities (l : List (List Nat × List Nat)) : List Nat :=
  le32 l.length ++
    (l.map (fun e => (le32 e.1.length ++ e.1) ++ (le32 e.2.length ++ e.2))).flatten

/-- `Registry.Encode` (src/unnamed/part_001 lines 277-287): collect
`(name, sch.Encode())` entities from the name→schema map — whose
iteration order is arbitrary, so the map is an association list in an
arbitrary order — sort them by name, and serialize. -/
def registryEncode (reg : List (List Nat × Schema)) : List Nat :=
  if reg.length = 0 then serializeEntities []
  else
    serializeEntities (sortEnts (reg.map (fun e => (e.1, encodeSchema e.2))))

/-- `Registry.Reference` / the `r.ref` computed in `finialize`:
`SumSHA256` of the canonical encoding. -/
def registryReference (reg : List (List Nat × Schema)) : List Nat :=
  sumSHA256 (registryEncode reg)

theorem lexLt_trans : ∀ {a b c : List Nat}, lexLt a b = true →
    lexLt b c = true → lexLt a c = true := by
  intro a
  induction a with
  | nil =>
    intro b c hab hbc
    cases b with
    | nil => exact hbc
    | cons y ys =>
      cases c with
      | nil => simp [lexLt] at hbc
      | cons z zs => rfl
  | cons x xs ih =>
    intro b c hab hbc
    cases b with
    | nil => simp [lexLt] at hab
    | cons y ys =>
      cases c with
      | nil => simp [lexLt] at hbc
      | cons z zs =>
        simp only [lexLt, Bool.or_eq_true, Bool.and_eq_true, decide_eq_true_eq,
          beq_iff_eq] at hab hbc ⊢
        rcases hab with h1 | ⟨he1, h1⟩
        · rcases hbc with h2 | ⟨he2, h2⟩
          · exact .inl (by omega)
          · exact .inl (by omega)
        · rcases hbc with h2 | ⟨he2, h2⟩
          · exact .inl (by omega)
          · exact .inr ⟨by omega, ih h1 h2⟩

theorem lexLt_asymm : ∀ {a b : List Nat}, lexLt a b = true →
    lexLt b a = true → False := by
  intro a
  induction a with
  | nil =>
    intro b hab hba
    cases b with
    | nil => simp [lexLt] at hab
    | cons y ys => simp [lexLt] at hba
  | cons x xs ih =>
    intro b hab hba
    cases b with
    | nil => simp [lexLt] at hab
    | cons y ys =>
      simp only [lexLt, Bool.or_eq_true, Bool.and_eq_true, decide_eq_true_eq,
        beq_iff_eq] at hab hba
      rcases hab with h1 | ⟨he1, h1⟩ <;> rcases hba with h2 | ⟨he2, h2⟩
      · omega
      · omega
      · omega
      · exact ih h1 h2

theorem lexLt_total : ∀ (a b : List Nat), a ≠ b →
    lexLt a b = true ∨ lexLt b a = true := by
  intro a
  induction a with
  | nil =>
    intro b hne
    cases b with
    | nil => exact absurd rfl hne
    | cons y ys => exact .inl rfl
  | cons x xs ih =>
    intro b hne
    cases b with
    | nil => exact .inr rfl
    | cons y ys =>
      by_cases hxy : x = y
      · subst hxy
        have hne' : xs ≠ ys := by
          intro hh
          exact hne (by rw [hh])
        rcases ih ys hne' with h | h
        · exact .inl (by simp [lexLt, h])
        · exact .inr (by simp [lexLt, h])
      · rcases Nat.lt_or_ge x y with h | h
        · exact .inl (by simp [lexLt]; omega)
        · have : y < x := by omega
          exact .inr (by simp [lexLt]; omega)

/-- The strict order on entities used by `registryEntities.Less`. -/
def entLt (x y : List Nat × List Nat) : Prop := lexLt x.1 y.1 = true

theorem insertEnt_perm (e : List Nat × List Nat) :
    ∀ l, List.Perm (insertEnt e l) (e :: l) := by
  intro l
  induction l with
  | nil => exact List.Perm.refl _
  | cons x xs ih =>
    rw [insertEnt]
    split
    · exact List.Perm.refl _
    · exact (ih.cons x).trans (List.Perm.swap e x xs)

theorem sortEnts_perm : ∀ l, List.Perm (sortEnts l) l := by
  intro l
  induction l with
  | nil => exact List.Perm.refl _
  | cons e es ih =>
    rw [sortEnts]
    exact (insertEnt_perm e (sortEnts es)).trans (ih.cons e)

theorem insertEnt_pairwise (e : List Nat × List Nat)
    (l : List (List Nat × List Nat)) (hs : l.Pairwise entLt)
    (hne : ∀ x ∈ l, e.1 ≠ x.1) : (insertEnt e l).Pairwise entLt := by
  induction l with
  | nil => simp [insertEnt]
  | cons x xs ih =>
    rw [insertEnt]
    rcases List.pairwise_cons.mp hs with ⟨hx, hxs⟩
    split
    · rename_i hlt
      refine List.Pairwise.cons ?_ hs
      intro y hy
      rcases List.mem_cons.mp hy with rfl | hy
      · exact hlt
      · exact lexLt_trans hlt (hx y hy)
    · rename_i hnlt
      refine List.Pairwise.cons ?_
        (ih hxs (fun z hz => hne z (List.mem_cons_of_mem _ hz)))
      intro y hy
      have hmem := (insertEnt_perm e xs).mem_iff.mp hy
      rcases List.mem_cons.mp hmem with rfl | hy'
      · rcases lexLt_total y.1 x.1 (hne x (List.mem_cons_self x xs)) with h | h
        · exact absurd h (by simpa using hnlt)
        · exact h
      · exact hx y hy'

theorem sortEnts_pairwise : ∀ (l : List (List Nat × List Nat)),
    (l.map Prod.fst).Nodup → (sortEnts l).Pairwise entLt := by
  intro l
  induction l with
  | nil => intro _; simp [sortEnts]
  | cons e es ih =>
    intro hn
    rw [sortEnts]
    simp only [List.map_cons, List.nodup_cons] at hn
    refine insertEnt_pairwise e (sortEnts es) (ih hn.2) ?_
    intro x hx heq
    have hmem := (sortEnts_perm es).subset hx
    exact hn.1 (by rw [heq]; exact List.mem_map_of_mem Prod.fst hmem)

theorem sortEnts_eq_of_perm (l₁ l₂ : List (List Nat × List Nat))
    (hp : List.Perm l₁ l₂) (hn : (l₁.map Prod.fst).Nodup) :
    sortEnts l₁ = sortEnts l₂ := by
  haveI : IsAntisymm (List Nat × List Nat) entLt :=
    ⟨fun a b hab hba => (lexLt_asymm hab hba).elim⟩
  exact List.eq_of_perm_of_sorted
    ((sortEnts_perm l₁).trans (hp.trans (sortEnts_perm l₂).symm))
    (sortEnts_pairwise l₁ hn)
    (sortEnts_pairwise l₂ ((hp.map Prod.fst).nodup_iff.mp hn))

/-- Claim C3: the Registry's canonical encoding and content identifier
are registration-order-independent.  Registration order and map
iteration order can only permute the name→schema association list; on
any two permutations with unique names (which `Register` enforces),
`Encode()` produces byte-identical output and `Reference()` the same
identifier. -/
theorem registry_encode_order_independent
    (l₁ l₂ : List (List Nat × Schema)) (hp : List.Perm l₁ l₂)
    (hn : (l₁.map Prod.fst).Nodup) :
    registryEncode l₁ = registryEncode l₂ ∧
    registryReference l₁ = registryReference l₂ := by
  have hfst₁ : (l₁.map (fun e => (e.1, encodeSchema e.2))).map Prod.fst =
      l₁.map Prod.fst := by
    rw [List.map_map]
    rfl
  have hents : sortEnts (l₁.map (fun e => (e.1, encodeSchema e.2))) =
      sortEnts (l₂.map (fun e => (e.1, encodeSchema e.2))) := by
    refine sortEnts_eq_of_perm _ _ (hp.map _) ?_
    rw [hfst₁]
    exact hn
  have henc : registryEncode l₁ = registryEncode l₂ := by
    unfold registryEncode
    rw [hp.length_eq, hents]
  exact ⟨henc, by unfold registryReference; rw [henc]⟩

/-- Witness for C3 at a concrete two-entry registry. -/
theorem registry_encode_order_independent_witness :
    registryEncode [([65], .plain kUint32 [65]), ([66], .plain kBool [66])] =
      registryEncode [([66], .plain kBool [66]), ([65], .plain kUint32 [65])] ∧
    registryReference [([65], .plain kUint32 [65]), ([66], .plain kBool [66])] =
      registryReference [([66], .plain kBool [66]), ([65], .plain kUint32 [65])] :=
  registry_encode_order_independent _ _ (List.Perm.swap _ _ _) (by decide)

/-! ## Schema codec: decoding (src/unnamed/part_001 lines 461-553) -/

/-- Read a `uint32`, returning the value and the remaining bytes
(`encoder.DeserializeRaw` fails on a short buffer). -/
def readU32 : List Nat → Except SErr (Nat × List Nat)
  | a :: b :: c :: d :: rest =>
    .ok (a + 256 * (b + 256 * (c + 256 * d)), rest)
  | _ => .error .deser

/-- Read a length-prefixed byte block. -/
def readBytes (p : List Nat) : Except SErr (List Nat × List Nat) :=
  match readU32 p with
  | .error e => .error e
  | .ok (n, r) =>
    if r.length < n then .error .deser else .ok (r.take n, r.drop n)

/-- Read `count` length-prefixed byte blocks. -/
def readBytesList : Nat → List Nat → Except SErr (List (List Nat) × List Nat)
  | 0, p => .ok ([], p)
  | c + 1, p =>
    match readBytes p with
    | .error e => .error e
    | .ok (b, r) =>
      match readBytesList c r with
      | .error e => .error e
      | .ok (bs, r') => .ok (b :: bs, r')

/-- The `encodedSchema` record documented inside `decodeSchema`. -/
structure EncSchema where
  rt : Nat
  kind : Nat
  name : List Nat
  len : Nat
  fields : List (List Nat)
  elem : List Nat

/-- The `encodedField` record documented inside `decodeSchema`. -/
structure EncField where
  name : List Nat
  tag : List Nat
  schema : List Nat

/-- `encoder.DeserializeRaw(b, &encodedSchema{})`: fields in declaration
order; trailing bytes are ignored. -/
def deserializeEncodedSchema (b : List Nat) : Except SErr EncSchema :=
  match readU32 b with
  | .error e => .error e
  | .ok (rt, r1) =>
    match readU32 r1 with
    | .error e => .error e
    | .ok (k, r2) =>
      match readBytes r2 with
      | .error e => .error e
      | .ok (nm, r3) =>
        match readU32 r3 with
        | .error e => .error e
        | .ok (len, r4) =>
          match readU32 r4 with
          | .error e => .error e
          | .ok (cnt, r5) =>
            match readBytesList cnt r5 with
            | .error e => .error e
            | .ok (fs, r6) =>
              match readBytes r6 with
              | .error e => .error e
              | .ok (el, _) => .ok ⟨rt, k, nm, len, fs, el⟩

/-- `encoder.DeserializeRaw(b, &encodedField{})`. -/
def deserializeEncodedField (b : List Nat) : Except SErr EncField :=
  match readBytes b with
  | .error e => .error e
  | .ok (nm, r1) =>
    match readBytes r1 with
    | .error e => .error e
    | .ok (tg, r2) =>
      match readBytes r2 with
      | .error e => .error e
      | .ok (sc, _) => .ok ⟨nm, tg, sc⟩

theorem readU32_length {p : List Nat} {n : Nat} {r : List Nat}
    (h : readU32 p = .ok (n, r)) : r.length + 4 = p.length := by
  unfold readU32 at h
  split at h
  · simp only [Except.ok.injEq, Prod.mk.injEq] at h
    rw [← h.2]
    simp
  · exact absurd h (by simp)

theorem readBytes_length {p bs r : List Nat}
    (h : readBytes p = .ok (bs, r)) : bs.length + r.length + 4 = p.length := by
  unfold readBytes at h
  split at h
  · exact absurd h (by simp)
  · rename_i n r0 hu
    split at h
    · exact absurd h (by simp)
    · rename_i hle
      simp only [Except.ok.injEq, Prod.mk.injEq] at h
      have hu' := readU32_length hu
      rw [← h.1, ← h.2, List.length_take, List.length_drop]
      omega

theorem readBytesList_sum : ∀ {c : Nat} {p : List Nat} {bs : List (List Nat)}
    {r : List Nat}, readBytesList c p = .ok (bs, r) →
    (bs.map List.length).sum + 4 * bs.length + r.length = p.length := by
  intro c
  induction c with
  | zero =>
    intro p bs r h
    simp only [readBytesList, Except.ok.injEq, Prod.mk.injEq] at h
    rw [← h.1, ← h.2]
    simp
  | succ c ih =>
    intro p bs r h
    rw [readBytesList] at h
    split at h
    · exact absurd h (by simp)
    · rename_i b0 r0 hb
      split at h
      · exact absurd h (by simp)
      · rename_i bs0 r1 hl
        simp only [Except.ok.injEq, Prod.mk.injEq] at h
        have h1 := readBytes_length hb
        have h2 := ih hl
        rw [← h.1, ← h.2]
        simp only [List.map_cons, List.sum_cons, List.length_cons]
        omega

/-- Total "field workload": the well-founded measure for the mutual
recursion of `decodeSchema` over raw field byte blocks. -/
def blen (fs : List (List Nat)) : Nat := (fs.map List.length).sum + fs.length

theorem encSchema_bounds {b : List Nat} {x : EncSchema}
    (h : deserializeEncodedSchema b = .ok x) :
    x.elem.length < b.length ∧ blen x.fields < b.length ∧
    (∀ f ∈ x.fields, f.length < b.length) := by
  unfold deserializeEncodedSchema at h
  split at h
  · exact absurd h (by simp)
  · rename_i rt r1 h1
    split at h
    · exact absurd h (by simp)
    · rename_i k r2 h2
      split at h
      · exact absurd h (by simp)
      · rename_i nm r3 h3
        split at h
        · exact absurd h (by simp)
        · rename_i len r4 h4
          split at h
          · exact absurd h (by simp)
          · rename_i cnt r5 h5
            split at h
            · exact absurd h (by simp)
            · rename_i fs r6 h6
              split at h
              · exact absurd h (by simp)
              · rename_i el r7 h7
                simp only [Except.ok.injEq] at h
                have e1 := readU32_length h1
                have e2 := readU32_length h2
                have e3 := readBytes_length h3
                have e4 := readU32_length h4
                have e5 := readU32_length h5
                have e6 := readBytesList_sum h6
                have e7 := readBytes_length h7
                subst h
                dsimp only
                refine ⟨by omega, by unfold blen; omega, ?_⟩
                intro f hf
                have hle : f.length ≤ (fs.map List.length).sum :=
                  List.le_sum_of_mem (List.mem_map_of_mem List.length hf)
                omega

theorem encField_bound {b : List Nat} {ef : EncField}
    (h : deserializeEncodedField b = .ok ef) : ef.schema.length < b.length := by
  unfold deserializeEncodedField at h
  split at h
  · exact absurd h (by simp)
  · rename_i nm r1 h1
    split at h
    · exact absurd h (by simp)
    · rename_i tg r2 h2
      split at h
      · exact absurd h (by simp)
      · rename_i sc r3 h3
        simp only [Except.ok.injEq] at h
        have e1 := readBytes_length h1
        have e2 := readBytes_length h2
        have e3 := readBytes_length h3
        subst h
        dsimp only
        omega

mutual

/-- `decodeSchema` (src/unnamed/part_001 lines 461-538): deserialize the
`encodedSchema` record, dispatch on the reference-type discriminator
(`Single = 1`, `Slice = 2`, `Dynamic = 3`; `None = 0` means "not a
reference"; anything else is `ErrInvalidEncodedSchema`), then for
non-references dispatch on the kind: Slice/Array/Struct recurse into the
element bytes or field blocks, and *any other* kind yields a plain
schema. -/
def decodeSchema (b : List Nat) : Except SErr Schema :=
  match hx : deserializeEncodedSchema b with
  | .error e => .error e
  | .ok x =>
    if hrt12 : x.rt = 1 ∨ x.rt = 2 then
      have hel : x.elem.length < b.length := (encSchema_bounds hx).1
      match decodeSchema x.elem with
      | .error e => .error e
      | .ok el => .ok (.refS x.rt x.kind (some el))
    else if x.rt = 3 then .ok (.refS 3 x.kind none)
    else if x.rt = 0 then
      if x.kind = kSlice then
        have hel : x.elem.length < b.length := (encSchema_bounds hx).1
        match decodeSchema x.elem with
        | .error e => .error e
        | .ok el => .ok (.sliceS x.name el)
      else if x.kind = kArray then
        have hel : x.elem.length < b.length := (encSchema_bounds hx).1
        match decodeSchema x.elem with
        | .error e => .error e
        | .ok el => .ok (.arrayS x.name x.len el)
      else if x.kind = kStruct then
        have hfs : blen x.fields < b.length := (encSchema_bounds hx).2.1
        match decodeFieldList x.fields with
        | .error e => .error e
        | .ok fs => .ok (.structS x.name fs)
      else .ok (.plain x.kind x.name)
    else .error .invalidEncodedSchema
termination_by (b.length, 0)
decreasing_by
  all_goals simp_wf
  all_goals first
    | exact Prod.Lex.left _ _ hel
    | exact Prod.Lex.left _ _ hfs

/-- `decodeField` (src/unnamed/part_001 lines 540-553). -/
def decodeField (b : List Nat) :
    Except SErr (List Nat × List Nat × Schema) :=
  match hf : deserializeEncodedField b with
  | .error e => .error e
  | .ok ef =>
    have hsc : ef.schema.length < b.length := encField_bound hf
    match decodeSchema ef.schema with
    | .error e => .error e
    | .ok s => .ok (ef.name, ef.tag, s)
termination_by (b.length, 1)
decreasing_by
  simp_wf
  exact Prod.Lex.left _ _ hsc

/-- The `for _, ef := range x.Fields` loop of `decodeSchema`'s struct
branch. -/
def decodeFieldList :
    List (List Nat) → Except SErr (List (List Nat × List Nat × Schema))
  | [] => .ok []
  | f :: rest =>
    match decodeField f with
    | .error e => .error e
    | .ok fd =>
      match decodeFieldList rest with
      | .error e => .error e
      | .ok fds => .ok (fd :: fds)
termination_by fs => (blen fs, 2)
decreasing_by
  all_goals simp_wf
  · exact Prod.Lex.left _ _ (by unfold blen; simp; omega)
  · exact Prod.Lex.left _ _ (by unfold blen; simp; omega)

end

theorem decodeSchema_rt_out (b : List Nat) (x : EncSchema)
    (hx : deserializeEncodedSchema b = .ok x)
    (h0 : x.rt ≠ 0) (h1 : x.rt ≠ 1) (h2 : x.rt ≠ 2) (h3 : x.rt ≠ 3) :
    decodeSchema b = .error .invalidEncodedSchema := by
  unfold decodeSchema
  split
  · rename_i e heq
    rw [heq] at hx
    exact absurd hx (by simp)
  · rename_i x' heq
    have hxx : x' = x := by
      rw [heq] at hx
      simpa using hx
    subst hxx
    rw [dif_neg (fun hh => hh.elim h1 h2), if_neg h3, if_neg h0]

theorem decodeSchema_rt0_other_kind (b : List Nat) (x : EncSchema)
    (hx : deserializeEncodedSchema b = .ok x) (h0 : x.rt = 0)
    (hk1 : x.kind ≠ kSlice) (hk2 : x.kind ≠ kArray) (hk3 : x.kind ≠ kStruct) :
    decodeSchema b = .ok (.plain x.kind x.name) := by
  unfold decodeSchema
  split
  · rename_i e heq
    rw [heq] at hx
    exact absurd hx (by simp)
  · rename_i x' heq
    have hxx : x' = x := by
      rw [heq] at hx
      simpa using hx
    subst hxx
    rw [dif_neg (by omega), if_neg (by omega), if_pos h0,
      if_neg hk1, if_neg hk2, if_neg hk3]

/-- Claim C6, amended: `decodeSchema` returns `ErrInvalidEncodedSchema`
precisely when the reference-type discriminator is outside the recognized
set {None, Single, Slice, Dynamic}; the kind is *not* validated (see the
counterexample below). -/
theorem decodeSchema_invalid_rt (b : List Nat) (x : EncSchema)
    (hx : deserializeEncodedSchema b = .ok x)
    (h0 : x.rt ≠ 0) (h1 : x.rt ≠ 1) (h2 : x.rt ≠ 2) (h3 : x.rt ≠ 3) :
    decodeSchema b = .error .invalidEncodedSchema :=
  decodeSchema_rt_out b x hx h0 h1 h2 h3

/-- Witness for the amended C6: discriminator 7 is rejected. -/
theorem decodeSchema_invalid_rt_witness :
    decodeSchema (serializeEncodedSchema 7 1 [] 0 [] []) =
      .error .invalidEncodedSchema :=
  decodeSchema_invalid_rt _ ⟨7, 1, [], 0, [], []⟩ (by rfl)
    (by decide) (by decide) (by decide) (by decide)

/-- Counterexample to C6 as stated: reference-type 0 with the
unrecognized kind 99 is *accepted*: `decodeSchema` silently returns a
plain schema of kind 99 instead of `ErrInvalidEncodedSchema` — the kind
half of the "closed recognized set" is never checked. -/
theorem decodeSchema_kind_cex :
    decodeSchema (serializeEncodedSchema 0 99 [] 0 [] []) =
      .ok (.plain 99 []) :=
  decodeSchema_rt0_other_kind _ ⟨0, 99, [], 0, [], []⟩ (by rfl) rfl
    (by decide) (by decide) (by decide)

/-! ## DecodeRegistry (src/unnamed/part_001 lines 236-252) -/

/-- Read one `registryEntity` (length-prefixed name, length-prefixed
schema bytes). -/
def readEntity (p : List Nat) :
    Except SErr ((List Nat × List Nat) × List Nat) :=
  match readBytes p with
  | .error e => .error e
  | .ok (nm, r1) =>
    match readBytes r1 with
    | .error e => .error e
    | .ok (sch, r2) => .ok ((nm, sch), r2)

/-- Read `count` registry entities. -/
def readEntityList :
    Nat → List Nat → Except SErr (List (List Nat × List Nat) × List Nat)
  | 0, p => .ok ([], p)
  | c + 1, p =>
    match readEntity p with
    | .error e => .error e
    | .ok (en, r) =>
      match readEntityList c r with
      | .error e => .error e
      | .ok (ens, r2) => .ok (en :: ens, r2)

/-- `encoder.DeserializeRaw(b, &registryEntities{})`. -/
def deserializeEntities (b : List Nat) :
    Except SErr (List (List Nat × List Nat)) :=
  match readU32 b with
  | .error e => .error e
  | .ok (c, r) =>
    match readEntityList c r with
    | .error e => .error e
    | .ok (es, _) => .ok es

/-- Modelled from the spec: the `Schema.Reference()` method — the
`SchemaRef` of a schema is the SHA256 digest of its canonical encoding
(the method's implementation is not among the given sources). -/
def schemaReference (s : Schema) : List Nat := sumSHA256 (encodeSchema s)

/-- Outcome of `DecodeRegistry`: a Go runtime panic (a method call on a
nil interface value aborts the program), a returned error, or the
decoded registry state. -/
inductive DRErr where
  | deserE
  | nilReference
deriving DecidableEq

/-- Go map assignment `m[k] = v` on an association list. -/
def assocSet (m : List (List Nat × Schema)) (k : List Nat) (v : Schema) :
    List (List Nat × Schema) :=
  if m.any (fun e => e.1 == k) then
    m.map (fun e => if e.1 == k then (e.1, v) else e)
  else m ++ [(k, v)]

/-- The loop of `DecodeRegistry` (src/unnamed/part_001 lines 245-249).
The body is `s, err = decodeSchema(re.Schema); r.reg[re.Name] = s;
r.srf[s.Reference()] = s` with no check of `err`: when `decodeSchema`
fails it returns the nil interface as `s` (every error path returns
before `s` is assigned), the nil schema is stored under the entry's
name, and the `s.Reference()` call in the same iteration invokes a
method on the nil interface — a runtime panic, modelled as
`.error .nilReference`.  On the non-panic path every entry decoded
successfully, so the named return `err` is nil when the loop ends. -/
def decodeRegistryLoop :
    List (List Nat × List Nat) → List (List Nat × Schema) →
    List (List Nat × Schema) →
    Except DRErr (List (List Nat × Schema) × List (List Nat × Schema))
  | [], reg, srf => .ok (reg, srf)
  | (name, sb) :: rest, reg, srf =>
    match decodeSchema sb with
    | .error _ => .error .nilReference
    | .ok s =>
      decodeRegistryLoop rest (assocSet reg name s)
        (assocSet srf (schemaReference s) s)

/-- `DecodeRegistry` (src/unnamed/part_001 lines 236-252): deserialize
the entity list (this error *is* checked and returned), run the loop,
and return the name→schema and reference→schema maps — which
`r.finialize()` then resolves in place; the fill pass and identifier
computation of finalization are modelled separately over the schema
heap (`fillAllF`, `storeRegistryReference`). -/
def DecodeRegistry (b : List Nat) :
    Except DRErr (List (List Nat × Schema) × List (List Nat × Schema)) :=
  match deserializeEntities b with
  | .error _ => .error .deserE
  | .ok res => decodeRegistryLoop res [] []

/-- Claim C7 is violated by the code: on a registry whose first entry
has invalid schema bytes (discriminator 7) and whose second entry is
valid, the first entry's decode fails with `ErrInvalidEncodedSchema`,
yet `DecodeRegistry` does not return that (or any) error value: the
loop never checks `err`, so `s.Reference()` is called on the nil
interface returned by the failed decode and the program aborts with a
runtime panic (`.error .nilReference`, distinct from the checked
deserialization error `.deserE`) instead of returning the first
decoding error. -/
theorem decodeRegistry_panics_on_first_error :
    decodeSchema (serializeEncodedSchema 7 1 [] 0 [] []) =
      .error .invalidEncodedSchema ∧
    DecodeRegistry (serializeEntities
        [([65], serializeEncodedSchema 7 1 [] 0 [] []),
         ([66], serializeEncodedSchema 0 1 [] 0 [] [])]) =
      .error .nilReference := by
  have hbad := decodeSchema_rt_out (serializeEncodedSchema 7 1 [] 0 [] [])
    ⟨7, 1, [], 0, [], []⟩ (by rfl)
    (by decide) (by decide) (by decide) (by decide)
  refine ⟨hbad, ?_⟩
  unfold DecodeRegistry
  rw [show deserializeEntities (serializeEntities
      [([65], serializeEncodedSchema 7 1 [] 0 [] []),
       ([66], serializeEncodedSchema 0 1 [] 0 [] [])]) =
    .ok [([65], serializeEncodedSchema 7 1 [] 0 [] []),
         ([66], serializeEncodedSchema 0 1 [] 0 [] [])] from rfl]
  simp only [decodeRegistryLoop]
  rw [hbad]

/-! ## Type registrar (src/unnamed/part_001 lines 22-209, 321-335,
395-401, 421-453) -/

/-- A Go type as the registrar inspects it: scalar kinds with the type's
declared name, pointers, the three reference-marker types (`Ref`, `Refs`,
`Dynamic` — external types whose identity the code compares against),
slices, arrays and structs.  A struct field carries the field name, the
struct tag — modelled as the key→value pairs that `reflect.StructTag.Get`
exposes — an exported flag (`PkgPath == ""`), and the field's type. -/
inductive GoType
  | prim (kind : Nat) (name : List Nat)
  | ptrT (t : GoType)
  | refT
  | refsT
  | dynT
  | sliceT (name : List Nat) (elem : GoType)
  | arrayT (name : List Nat) (len : Nat) (elem : GoType)
  | structT (name : List Nat)
      (fields : List (List Nat × List (List Nat × List Nat) × Bool × GoType))

/-- `typeOf` (src/unnamed/part_001 lines 455-457): `reflect.Indirect`
converts a pointer value to its element. -/
def typeOf : GoType → GoType
  | .ptrT t => t
  | t => t

/-- Is this one of the three reference-wrapper marker types (the
`typeOfRef, typeOfRefs, typeOfDynamic` comparison in `Register`)? -/
def isMarker : GoType → Bool
  | .refT => true
  | .refsT => true
  | .dynT => true
  | _ => false

mutual

/-- Type identity (`reflect.Type` equality) for the modelled Go types. -/
def goTypeBEq : GoType → GoType → Bool
  | .prim k n, .prim k' n' => k == k' && n == n'
  | .ptrT t, .ptrT t' => goTypeBEq t t'
  | .refT, .refT => true
  | .refsT, .refsT => true
  | .dynT, .dynT => true
  | .sliceT n e, .sliceT n' e' => n == n' && goTypeBEq e e'
  | .arrayT n l e, .arrayT n' l' e' => n == n' && l == l' && goTypeBEq e e'
  | .structT n fs, .structT n' fs' => n == n' && goFieldsBEq fs fs'
  | _, _ => false
termination_by t _ => (sizeOf t, 0)

def goFieldsBEq :
    List (List Nat × List (List Nat × List Nat) × Bool × GoType) →
    List (List Nat × List (List Nat × List Nat) × Bool × GoType) → Bool
  | [], [] => true
  | (n, tg, ex, t) :: fs, (n', tg', ex', t') :: fs' =>
    n == n' && tg == tg' && ex == ex' && goTypeBEq t t' && goFieldsBEq fs fs'
  | _, _ => false
termination_by fs _ => (sizeOf fs, 1)

end

/-- Registration-time panics and recoverable registry errors. -/
inductive RegErr
  | emptyName
  | refType
  | dupName
  | tagErr
  | invalidType
  | notRegistered
  | missingSchema
deriving DecidableEq

/-- The Go map update `r.tn[typ] = name` on the association-list model. -/
def tnSet (r : List (GoType × List Nat)) (typ : GoType) (name : List Nat) :
    List (GoType × List Nat) :=
  if r.any (fun e => goTypeBEq e.1 typ) then
    r.map (fun e => if goTypeBEq e.1 typ then (e.1, name) else e)
  else r ++ [(typ, name)]

/-- `Reg.Register` (src/unnamed/part_001 lines 36-54): panics (modelled
as errors) on an empty name, on a reference-marker type, or on a name
already present among the map's values; otherwise records the
(type, name) pair. -/
def Register (r : List (GoType × List Nat)) (name : List Nat)
    (val : GoType) : Except RegErr (List (GoType × List Nat)) :=
  if name = [] then .error .emptyName
  else
    let typ := typeOf val
    if isMarker typ then .error .refType
    else if r.any (fun e => e.2 == name) then .error .dupName
    else .ok (tnSet r typ name)

def strBytes (s : String) : List Nat := s.data.map Char.toNat

/-- The `skyobject` struct-tag key. -/
def skyTAG : List Nat := strBytes "skyobject"

/-- `reflect.StructTag.Get`. -/
def tagGet (tag : List (List Nat × List Nat)) (key : List Nat) : List Nat :=
  (tag.lookup key).getD []

/-- `strings.Split` with a one-byte separator. -/
def splitOnByte (sep : Nat) : List Nat → List (List Nat)
  | [] => [[]]
  | c :: rest =>
    let r := splitOnByte sep rest
    if c = sep then [] :: r
    else
      match r with
      | [] => [[c]]
      | h :: t => (c :: h) :: t

/-- The scan over the comma-separated parts of the `skyobject` tag value
inside `TagSchemaName`. -/
def findSchemaPart : List (List Nat) → Except RegErr (List Nat)
  | [] => .error .tagErr
  | part :: rest =>
    if (strBytes "schema=").isPrefixOf part then
      match splitOnByte 61 part with
      | [_, b] => if b = [] then .error .tagErr else .ok b
      | _ => .error .tagErr
    else findSchemaPart rest

/-- `TagSchemaName` (src/unnamed/part_001 lines 421-445): extract `XXX`
from a `skyobject:"schema=XXX"` tag; every malformed shape (missing tag,
no `schema=` part, extra `=`, empty name) is a distinct error in Go, all
modelled as `tagErr`. -/
def TagSchemaName (tag : List (List Nat × List Nat)) :
    Except RegErr (List Nat) :=
  let skytag := tagGet tag skyTAG
  if skytag = [] then .error .tagErr
  else findSchemaPart (splitOnByte 44 skytag)

/-- Raw bytes of a struct tag (`[]byte(sf.Tag)`): the conventional
`key:"value"` rendering, space-separated. -/
def tagBytes (tag : List (List Nat × List Nat)) : List Nat :=
  List.intercalate [32] (tag.map (fun kv => kv.1 ++ [58, 34] ++ kv.2 ++ [34]))

/-- Modelled from the spec: the kinds of the external marker types.
`part_002`'s documentation gives `Ptr` for single/dynamic references and
`Slice` for `References`; the claims only need that none is a fixed-size
scalar kind. -/
def kindOfRef : Nat := kPtr

def kindOfRefs : Nat := kSlice

def kindOfDynamic : Nat := kPtr

/-- The scalar kinds plus String: the kinds `getSchema` accepts for a
plain schema. -/
def isScalarKind (k : Nat) : Bool :=
  k == kBool || k == kInt8 || k == kUint8 || k == kInt16 || k == kUint16 ||
  k == kInt32 || k == kUint32 || k == kFloat32 || k == kInt64 ||
  k == kUint64 || k == kFloat64 || k == kString

/-- `Reg.typeName` (src/unnamed/part_001 lines 58-66): the registered
name when present, else the type's own declared name (nil if empty). -/
def lookupTN (r : List (GoType × List Nat)) (typ : GoType) :
    Option (List Nat) :=
  match r with
  | [] => none
  | e :: rest => if goTypeBEq e.1 typ then some e.2 else lookupTN rest typ

def goTypeName : GoType → List Nat
  | .prim _ n => n
  | .sliceT n _ => n
  | .arrayT n _ _ => n
  | .structT n _ => n
  | _ => []

def typeName (r : List (GoType × List Nat)) (typ : GoType) : List Nat :=
  match lookupTN r typ with
  | some n => n
  | none => goTypeName typ

mutual

/-- `Reg.getSchema` (src/unnamed/part_001 lines 68-155): Dynamic maps to
a dynamic reference, bare `Ref`/`Refs` panic, scalars and strings map to
plain schemas, slices/arrays recurse into their element (storing only a
placeholder when the element is a named type), structs walk their fields,
and anything else panics ("invalid type"). -/
def getSchema (r : List (GoType × List Nat)) (typ : GoType) :
    Except RegErr Schema :=
  match typ with
  | .dynT => .ok (.refS 3 kindOfDynamic none)
  | .refT => .error .refType
  | .refsT => .error .refType
  | .prim k _ =>
    if isScalarKind k then .ok (.plain k (typeName r typ))
    else .error .invalidType
  | .sliceT _ elem =>
    match getSchema r elem with
    | .error e => .error e
    | .ok el =>
      if el.isRegistered then
        .ok (.sliceS (typeName r typ) (.plain el.kind el.name))
      else .ok (.sliceS (typeName r typ) el)
  | .arrayT _ len elem =>
    match getSchema r elem with
    | .error e => .error e
    | .ok el =>
      if el.isRegistered then
        .ok (.arrayS (typeName r typ) len (.plain el.kind el.name))
      else .ok (.arrayS (typeName r typ) len el)
  | .structT _ fields =>
    match getFields r fields with
    | .error e => .error e
    | .ok fs => .ok (.structS (typeName r typ) fs)
  | .ptrT _ => .error .invalidType
termination_by (sizeOf typ, 0)

/-- `Reg.getField` (src/unnamed/part_001 lines 157-209): the three
reference field shapes are recognized before generic recursion; a
`Ref`/`Refs` field requires the `schema=` tag (panic when absent), and a
named field schema is stored as a placeholder only. -/
def getField (r : List (GoType × List Nat)) (fname : List Nat)
    (tag : List (List Nat × List Nat)) (ftype : GoType) :
    Except RegErr (List Nat × List Nat × Schema) :=
  match ftype with
  | .refT =>
    match TagSchemaName tag with
    | .error e => .error e
    | .ok tagRef =>
      .ok (fname, tagBytes tag, .refS 1 kindOfRef (some (.plain kStruct tagRef)))
  | .refsT =>
    match TagSchemaName tag with
    | .error e => .error e
    | .ok tagRef =>
      .ok (fname, tagBytes tag, .refS 2 kindOfRefs (some (.plain kStruct tagRef)))
  | .dynT => .ok (fname, tagBytes tag, .refS 3 kindOfDynamic none)
  | t =>
    match getSchema r t with
    | .error e => .error e
    | .ok s =>
      if s.isRegistered then .ok (fname, tagBytes tag, .plain s.kind s.name)
      else .ok (fname, tagBytes tag, s)
termination_by (sizeOf ftype, 1)

/-- The field walk of `getSchema`'s struct case, with the skip rule
`enc:"-"`, unexported, or `_`-named fields. -/
def getFields (r : List (GoType × List Nat)) :
    List (List Nat × List (List Nat × List Nat) × Bool × GoType) →
    Except RegErr (List (List Nat × List Nat × Schema))
  | [] => .ok []
  | (fname, tag, ex, ftype) :: rest =>
    if tagGet tag (strBytes "enc") = [45] ∨ ex = false ∨ fname = [95] then
      getFields r rest
    else
      match getField r fname tag ftype with
      | .error e => .error e
      | .ok fd =>
        match getFields r rest with
        | .error e => .error e
        | .ok fds => .ok (fd :: fds)
termination_by fs => (sizeOf fs, 2)

end

/-- `Registry.register` (src/unnamed/part_001 lines 321-335): for every
registered (type, name) pair, build its schema with the full `tn` map in
scope and store it under its name; panics when the schema is unnamed. -/
def registryRegisterAux (full : List (GoType × List Nat)) :
    List (GoType × List Nat) → Except RegErr (List (List Nat × Schema))
  | [] => .ok []
  | (typ, nm) :: rest =>
    match getSchema full typ with
    | .error e => .error e
    | .ok s =>
      if s.isRegistered then
        match registryRegisterAux full rest with
        | .error e => .error e
        | .ok m => .ok ((nm, s) :: m)
      else .error .notRegistered

def registryRegister (tn : List (GoType × List Nat)) :
    Except RegErr (List (List Nat × Schema)) :=
  registryRegisterAux tn tn

/-- `Registry.schemaByName` (src/unnamed/part_001 lines 395-401). -/
def schemaByName (reg : List (List Nat × Schema)) (name : List Nat) :
    Except RegErr Schema :=
  match reg.lookup name with
  | some s => .ok s
  | none => .error .missingSchema

theorem goTypeBEq_refl_aux : ∀ (N : Nat),
    (∀ (t : GoType), sizeOf t ≤ N → goTypeBEq t t = true) ∧
    (∀ (fs : List (List Nat × List (List Nat × List Nat) × Bool × GoType)),
      sizeOf fs ≤ N → goFieldsBEq fs fs = true) := by
  intro N
  induction N with
  | zero =>
    constructor
    · intro t h
      exfalso
      cases t <;> simp at h
    · intro fs h
      cases fs with
      | nil => simp [goFieldsBEq]
      | cons f fs =>
        exfalso
        simp at h
  | succ N ih =>
    constructor
    · intro t h
      cases t with
      | prim k n => simp [goTypeBEq]
      | ptrT t' =>
        simp only [goTypeBEq]
        exact ih.1 t' (by simp only [GoType.ptrT.sizeOf_spec] at h; omega)
      | refT => simp [goTypeBEq]
      | refsT => simp [goTypeBEq]
      | dynT => simp [goTypeBEq]
      | sliceT n e =>
        simp only [goTypeBEq, Bool.and_eq_true, beq_self_eq_true, true_and]
        exact ih.1 e (by simp only [GoType.sliceT.sizeOf_spec] at h; omega)
      | arrayT n l e =>
        simp only [goTypeBEq, Bool.and_eq_true, beq_self_eq_true, true_and]
        exact ih.1 e (by simp only [GoType.arrayT.sizeOf_spec] at h; omega)
      | structT n fs =>
        simp only [goTypeBEq, Bool.and_eq_true, beq_self_eq_true, true_and]
        exact ih.2 fs (by simp only [GoType.structT.sizeOf_spec] at h; omega)
    · intro fs h
      cases fs with
      | nil => simp [goFieldsBEq]
      | cons f fs =>
        obtain ⟨n, tg, ex, t⟩ := f
        have hb : sizeOf t ≤ N ∧ sizeOf fs ≤ N := by
          simp only [List.cons.sizeOf_spec, Prod.mk.sizeOf_spec] at h
          omega
        simp only [goFieldsBEq, Bool.and_eq_true, beq_self_eq_true, true_and]
        exact ⟨ih.1 t hb.1, ih.2 fs hb.2⟩

theorem goTypeBEq_refl (t : GoType) : goTypeBEq t t = true :=
  (goTypeBEq_refl_aux (sizeOf t)).1 t le_rfl

/-- Claim C9: `Register` fails fatally exactly when the name is empty,
the (value-level) type is one of the three reference-wrapper markers, or
the name was already registered; for all other inputs it succeeds and
records the (type, name) pair.  Likewise, building the schema of a
`Ref`/`Refs` field fails fatally exactly when the struct tag lacks the
required target-type name. -/
theorem register_fatal_iff :
    (∀ (r : List (GoType × List Nat)) (name : List Nat) (val : GoType),
      (∃ e, Register r name val = .error e) ↔
        (name = [] ∨ isMarker (typeOf val) = true ∨
          name ∈ r.map Prod.snd)) ∧
    (∀ (r : List (GoType × List Nat)) (name : List Nat) (val : GoType),
      name ≠ [] → isMarker (typeOf val) = false →
      name ∉ r.map Prod.snd →
      Register r name val = .ok (tnSet r (typeOf val) name)) ∧
    (∀ (r : List (GoType × List Nat)) (fname : List Nat)
      (tag : List (List Nat × List Nat)) (ft : GoType),
      ft = .refT ∨ ft = .refsT →
      ((∃ e, getField r fname tag ft = .error e) ↔
        (∃ e, TagSchemaName tag = .error e))) := by
  refine ⟨?_, ?_, ?_⟩
  · intro r name val
    unfold Register
    by_cases h1 : name = []
    · simp [h1]
    · rw [if_neg h1]
      by_cases h2 : isMarker (typeOf val) = true
      · simp [h1, h2]
      · rw [if_neg h2]
        by_cases h3 : r.any (fun e => e.2 == name) = true
        · constructor
          · intro _
            right
            right
            obtain ⟨en, hen, heq⟩ := List.any_eq_true.mp h3
            exact List.mem_map.mpr ⟨en, hen, by simpa using heq⟩
          · intro _
            exact ⟨.dupName, by rw [if_pos h3]⟩
        · rw [if_neg h3]
          constructor
          · intro ⟨e, he⟩
            exact absurd he (by simp)
          · intro hor
            rcases hor with h | h | h
            · exact absurd h h1
            · exact absurd h h2
            · exfalso
              apply h3
              rw [List.any_eq_true]
              obtain ⟨x, hx, hx2⟩ := List.mem_map.mp h
              exact ⟨x, hx, by simp [hx2]⟩
  · intro r name val h1 h2 h3
    unfold Register
    rw [if_neg h1, if_neg (by rw [h2]; simp),
      if_neg (fun hh => by
        obtain ⟨x, hx, hx2⟩ := List.any_eq_true.mp hh
        exact h3 (List.mem_map.mpr ⟨x, hx, by simpa using hx2⟩))]
  · intro r fname tag ft hft
    rcases hft with rfl | rfl
    · unfold getField
      cases ht : TagSchemaName tag with
      | error e => simp
      | ok v => simp
    · unfold getField
      cases ht : TagSchemaName tag with
      | error e => simp
      | ok v => simp

/-- Witness for C9 at concrete inputs: empty-name registration fails,
marker registration fails, a fresh registration succeeds and records the
pair, and a `Ref` field with a tag lacking `schema=` fails. -/
theorem register_fatal_iff_witness :
    (∃ e, Register [] [] (.prim kBool []) = .error e) ∧
    (∃ e, Register [] [65] .refT = .error e) ∧
    Register [] [65] (.prim kBool [66]) =
      .ok (tnSet [] (typeOf (.prim kBool [66])) [65]) ∧
    (∃ e, getField [] [70] [] .refT = .error e) := by
  refine ⟨?_, ?_, ?_, ?_⟩
  · exact (register_fatal_iff.1 [] [] (.prim kBool [])).mpr (.inl rfl)
  · exact (register_fatal_iff.1 [] [65] .refT).mpr (.inr (.inl (by decide)))
  · exact register_fatal_iff.2.1 [] [65] (.prim kBool [66])
      (by decide) (by decide) (by simp)
  · exact (register_fatal_iff.2.2 [] [70] [] .refT (.inl rfl)).mpr
      ⟨.tagErr, by simp [TagSchemaName, tagGet]⟩

/-- Claim C10: registering the same exemplar type twice on one `Reg`
under two distinct non-empty names does not fail; the second call
replaces the type's entry, so the Registry built from the `Reg` holds the
schema only under the second name and `SchemaByName` on the first name
reports the missing-schema error. -/
theorem register_same_type_twice (T : GoType) (n1 n2 : List Nat)
    (h1 : n1 ≠ []) (h2 : n2 ≠ []) (h12 : n1 ≠ n2)
    (hm : isMarker (typeOf T) = false)
    (s : Schema) (hs : getSchema [(typeOf T, n2)] (typeOf T) = .ok s)
    (hreg : s.isRegistered = true) :
    Register [] n1 T = .ok [(typeOf T, n1)] ∧
    Register [(typeOf T, n1)] n2 T = .ok [(typeOf T, n2)] ∧
    registryRegister [(typeOf T, n2)] = .ok [(n2, s)] ∧
    schemaByName [(n2, s)] n1 = .error .missingSchema := by
  refine ⟨?_, ?_, ?_, ?_⟩
  · unfold Register
    rw [if_neg h1, if_neg (by rw [hm]; simp), if_neg (by simp)]
    unfold tnSet
    simp
  · unfold Register
    rw [if_neg h2, if_neg (by rw [hm]; simp),
      if_neg (by
        intro hh
        simp only [List.any_cons, List.any_nil, Bool.or_false,
          beq_iff_eq] at hh
        first
        | exact h12 hh
        | exact h12 hh.symm)]
    unfold tnSet
    rw [if_pos (by simp [goTypeBEq_refl])]
    simp [goTypeBEq_refl]
  · unfold registryRegister
    simp only [registryRegisterAux, hs, hreg, if_true]
  · unfold schemaByName
    have hl : List.lookup n1 [(n2, s)] = none := by
      rw [List.lookup, show (n1 == n2) = false from beq_eq_false_iff_ne.mpr h12]
      simp [List.lookup]
    rw [hl]

/-- Witness for C10: the named uint32 type registered as "A" then "B". -/
theorem register_same_type_twice_witness :
    Register [] [65] (.prim kUint32 [85]) =
      .ok [((.prim kUint32 [85]), [65])] ∧
    Register [((.prim kUint32 [85]), [65])] [66] (.prim kUint32 [85]) =
      .ok [((.prim kUint32 [85]), [66])] ∧
    registryRegister [((.prim kUint32 [85]), [66])] =
      .ok [([66], .plain kUint32 [66])] ∧
    schemaByName [([66], .plain kUint32 [66])] [65] =
      .error .missingSchema :=
  register_same_type_twice (.prim kUint32 [85]) [65] [66]
    (by decide) (by decide) (by decide) (by decide)
    (.plain kUint32 [66])
    (by simp [getSchema, typeOf, isScalarKind, typeName, lookupTN, goTypeBEq,
      kUint32])
    (by simp [Schema.isRegistered, Schema.name])

/-! ## Pointer-store model of `Registry.fillSchema` / `finialize`
(src/unnamed/part_001 lines 339-416)

`fillSchema` mutates schema objects in place through pointers and keys
its visited set by object identity (`map[Schema]struct{}`), so it is
modelled over an explicit heap: a `Store` is a list of nodes and a
pointer is an index into it. -/

/-- A heap node: one schema object.  `structN` fields carry
(name, tag, pointer); `refN` carries the ReferenceType and the pointer
to its element schema. -/
inductive Node where
  | plainN (kind : Nat) (name : List Nat)
  | sliceN (name : List Nat) (elem : Nat)
  | arrayN (name : List Nat) (length : Nat) (elem : Nat)
  | structN (name : List Nat) (fields : List (List Nat × List Nat × Nat))
  | refN (rt : Nat) (elem : Nat)
deriving DecidableEq

def Store := List Node

/-- `Schema.Name()` of a node; reference schemas are unnamed. -/
def Node.nameN : Node → List Nat
  | .plainN _ n => n
  | .sliceN n _ => n
  | .arrayN n _ _ => n
  | .structN n _ => n
  | .refN _ _ => []

/-- `Schema.IsRegistered()`: non-empty name. -/
def Node.isRegisteredN (nd : Node) : Bool := !nd.nameN.isEmpty

/-- `Schema.Kind()` of a node (`reflect.Ptr` for Reference and Dynamic,
`reflect.Slice` for References). -/
def Node.kindN : Node → Nat
  | .plainN k _ => k
  | .sliceN _ _ => kSlice
  | .arrayN _ _ _ => kArray
  | .structN _ _ => kStruct
  | .refN rt _ => if rt = 2 then kSlice else kPtr

/-- The fatal conditions of `fillSchema` (panics) plus fuel exhaustion,
which the termination theorem rules out. -/
inductive FillErr where
  | outOfFuel
  | badPointer
  | missingSchemaF
  | invalidReference
deriving DecidableEq

/-- Replace the pointer of field `i` of a field list
(`s.(*structSchema).fields[i] = x` after `x.schema` was reassigned). -/
def setFieldPtr : List (List Nat × List Nat × Nat) → Nat → Nat →
    List (List Nat × List Nat × Nat)
  | [], _, _ => []
  | (fn, ft, _) :: rest, 0, q => (fn, ft, q) :: rest
  | f :: rest, i + 1, q => f :: setFieldPtr rest i q

/-- Write the new pointer of field `i` into the struct node at `p`. -/
def setStructField (st : List Node) (p i q : Nat) : List Node :=
  match st.get? p with
  | some (.structN n fs) => st.set p (.structN n (setFieldPtr fs i q))
  | _ => st

mutual

/-- `Registry.fillSchema` (src/unnamed/part_001 lines 339-393) over the
heap, with fuel.  Returns the mutated store and the visited set
(pointers — object identity, not names). -/
def fillF : Nat → List (List Nat × Nat) → List Node → Nat → List Nat →
    Except FillErr (List Node × List Nat)
  | 0, _, _, _, _ => .error .outOfFuel
  | fuel + 1, reg, st, p, visited =>
    if p ∈ visited then .ok (st, visited)
    else
      match st.get? p with
      | none => .error .badPointer
      | some nd =>
        match nd with
        | .plainN _ _ => .ok (st, p :: visited)
        | .refN rt el =>
          if rt = 1 ∨ rt = 2 then
            match st.get? el with
            | none => .error .badPointer
            | some elnd =>
              match reg.lookup elnd.nameN with
              | none => .error .missingSchemaF
              | some q =>
                fillF fuel reg (st.set p (.refN rt q)) q (p :: visited)
          else if rt = 3 then .ok (st, p :: visited)
          else .error .invalidReference
        | .sliceN n el =>
          match st.get? el with
          | none => .error .badPointer
          | some elnd =>
            if elnd.isRegisteredN then
              match reg.lookup elnd.nameN with
              | none => .error .missingSchemaF
              | some q =>
                fillF fuel reg (st.set p (.sliceN n q)) q (p :: visited)
            else fillF fuel reg st el (p :: visited)
        | .arrayN n l el =>
          match st.get? el with
          | none => .error .badPointer
          | some elnd =>
            if elnd.isRegisteredN then
              match reg.lookup elnd.nameN with
              | none => .error .missingSchemaF
              | some q =>
                fillF fuel reg (st.set p (.arrayN n l q)) q (p :: visited)
            else fillF fuel reg st el (p :: visited)
        | .structN _ fields => fillFieldsF fuel reg st p fields 0 (p :: visited)

/-- The field loop of `fillSchema`'s struct case: `i` is the index into
the struct's field array, `fields` the remaining snapshot. -/
def fillFieldsF : Nat → List (List Nat × Nat) → List Node → Nat →
    List (List Nat × List Nat × Nat) → Nat → List Nat →
    Except FillErr (List Node × List Nat)
  | 0, _, _, _, _, _, _ => .error .outOfFuel
  | _ + 1, _, st, _, [], _, visited => .ok (st, visited)
  | fuel + 1, reg, st, p, (_, _, fp) :: rest, i, visited =>
    match st.get? fp with
    | none => .error .badPointer
    | some fnd =>
      if fnd.isRegisteredN then
        match reg.lookup fnd.nameN with
        | none => .error .missingSchemaF
        | some q =>
          match fillF fuel reg (setStructField st p i q) q visited with
          | .error e => .error e
          | .ok (st', visited') =>
            fillFieldsF fuel reg st' p rest (i + 1) visited'
      else
        match fillF fuel reg st fp visited with
        | .error e => .error e
        | .ok (st', visited') =>
          fillFieldsF fuel reg st' p rest (i + 1) visited'

end

/-- The fill loop of `finialize` (src/unnamed/part_001 lines 403-408):
one shared visited set across all registered schemas, iterated in map
order. -/
def fillAllF (fuel : Nat) (reg : List (List Nat × Nat)) :
    List Node → List Nat → List Nat → Except FillErr (List Node)
  | st, _, [] => .ok st
  | st, visited, p :: rest =>
    match fillF fuel reg st p visited with
    | .error e => .error e
    | .ok (st', visited') => fillAllF fuel reg st' visited' rest

mutual

/-- `Schema.Encode()` of a heap node: the serialized `encodedSchema`
record, with *named* children written as placeholders (kind + name),
which keeps encoding of the cyclic filled graph finite. -/
def nodeEncodeF : Nat → List Node → Nat → Option (List Nat)
  | 0, _, _ => none
  | fuel + 1, st, p =>
    match st.get? p with
    | none => none
    | some nd =>
      match nd with
      | .plainN k nm => some (serializeEncodedSchema 0 k nm 0 [] [])
      | .sliceN nm el =>
        match nodeChildF fuel st el with
        | none => none
        | some b => some (serializeEncodedSchema 0 kSlice nm 0 [] b)
      | .arrayN nm len el =>
        match nodeChildF fuel st el with
        | none => none
        | some b => some (serializeEncodedSchema 0 kArray nm len [] b)
      | .structN nm fs =>
        match nodeFieldsF fuel st fs with
        | none => none
        | some bs => some (serializeEncodedSchema 0 kStruct nm 0 bs [])
      | .refN rt el =>
        if rt = 3 then some (serializeEncodedSchema rt kPtr [] 0 [] [])
        else
          match nodeChildF fuel st el with
          | none => none
          | some b =>
            some (serializeEncodedSchema rt (Node.kindN (.refN rt el)) [] 0 [] b)

/-- A child position: a registered child is encoded as its placeholder. -/
def nodeChildF : Nat → List Node → Nat → Option (List Nat)
  | 0, _, _ => none
  | fuel + 1, st, p =>
    match st.get? p with
    | none => none
    | some nd =>
      if nd.isRegisteredN then
        some (serializeEncodedSchema 0 nd.kindN nd.nameN 0 [] [])
      else nodeEncodeF fuel st p

def nodeFieldsF : Nat → List Node →
    List (List Nat × List Nat × Nat) → Option (List (List Nat))
  | 0, _, _ => none
  | _ + 1, _, [] => some []
  | fuel + 1, st, (fn, ft, fp) :: rest =>
    match nodeChildF fuel st fp, nodeFieldsF fuel st rest with
    | some b, some bs => some (serializeEncodedField fn ft b :: bs)
    | _, _ => none

end

/-- `(name, sch.Encode())` entities of the registry over the heap. -/
def entsOfF (fuel : Nat) (st : List Node) :
    List (List Nat × Nat) → Option (List (List Nat × List Nat))
  | [] => some []
  | (n, p) :: rest =>
    match nodeEncodeF fuel st p, entsOfF fuel st rest with
    | some b, some es => some ((n, b) :: es)
    | _, _ => none

/-- `Registry.Encode` over the heap: entities in map order, sorted by
name, serialized. -/
def storeRegistryEncode (fuel : Nat) (st : List Node)
    (reg : List (List Nat × Nat)) : Option (List Nat) :=
  match entsOfF fuel st reg with
  | none => none
  | some ents =>
    some (if ents.length = 0 then serializeEntities []
      else serializeEntities (sortEnts ents))

/-- The registry content identifier computed at the end of `finialize`:
`SumSHA256` of the canonical encoding. -/
def storeRegistryReference (fuel : Nat) (st : List Node)
    (reg : List (List Nat × Nat)) : Option (List Nat) :=
  match storeRegistryEncode fuel st reg with
  | none => none
  | some b => some (sumSHA256 b)

/-- Claim C8: for every mutually recursive pair (struct `A` with a `Ref`
field targeting `B` via its tag, struct `B` with a `Ref` field targeting
`A`), finalization terminates: the identity-keyed `fillSchema` pass over
the heap reaches its fixed point in finitely many steps (fuel 16 is
never exhausted) whichever schema is filled first, producing the same
resolved cyclic graph, and the content identifier computed from the
resolved registry is the same whatever map iteration order a repeated
build uses. -/
theorem cyclic_fill_terminates (na nb fa fb ta tb : List Nat)
    (hna : na ≠ []) (hnb : nb ≠ []) (hne : na ≠ nb) :
    (fillAllF 16 [(na, 0), (nb, 1)]
      [.structN na [(fa, ta, 2)], .structN nb [(fb, tb, 3)],
        .refN 1 4, .refN 1 5, .plainN kStruct nb, .plainN kStruct na]
      [] [0, 1] =
      .ok [.structN na [(fa, ta, 2)], .structN nb [(fb, tb, 3)],
        .refN 1 1, .refN 1 0, .plainN kStruct nb, .plainN kStruct na]) ∧
    (fillAllF 16 [(na, 0), (nb, 1)]
      [.structN na [(fa, ta, 2)], .structN nb [(fb, tb, 3)],
        .refN 1 4, .refN 1 5, .plainN kStruct nb, .plainN kStruct na]
      [] [1, 0] =
      .ok [.structN na [(fa, ta, 2)], .structN nb [(fb, tb, 3)],
        .refN 1 1, .refN 1 0, .plainN kStruct nb, .plainN kStruct na]) ∧
    (fillAllF 16 [(nb, 1), (na, 0)]
      [.structN na [(fa, ta, 2)], .structN nb [(fb, tb, 3)],
        .refN 1 4, .refN 1 5, .plainN kStruct nb, .plainN kStruct na]
      [] [1, 0] =
      .ok [.structN na [(fa, ta, 2)], .structN nb [(fb, tb, 3)],
        .refN 1 1, .refN 1 0, .plainN kStruct nb, .plainN kStruct na]) ∧
    (∃ r,
      storeRegistryReference 16
        [.structN na [(fa, ta, 2)], .structN nb [(fb, tb, 3)],
          .refN 1 1, .refN 1 0, .plainN kStruct nb, .plainN kStruct na]
        [(na, 0), (nb, 1)] = some r ∧
      storeRegistryReference 16
        [.structN na [(fa, ta, 2)], .structN nb [(fb, tb, 3)],
          .refN 1 1, .refN 1 0, .plainN kStruct nb, .plainN kStruct na]
        [(nb, 1), (na, 0)] = some r) := by
  have hab : (na == nb) = false := beq_eq_false_iff_ne.mpr hne
  have hba : (nb == na) = false := beq_eq_false_iff_ne.mpr (Ne.symm hne)
  have hae : na.isEmpty = false := by
    cases na with
    | nil => exact absurd rfl hna
    | cons _ _ => rfl
  have hbe : nb.isEmpty = false := by
    cases nb with
    | nil => exact absurd rfl hnb
    | cons _ _ => rfl
  refine ⟨?_, ?_, ?_, ?_⟩
  · simp [fillAllF, fillF, fillFieldsF, Node.isRegisteredN, Node.nameN,
      List.lookup, hab, hba, hae, hbe]
  · simp [fillAllF, fillF, fillFieldsF, Node.isRegisteredN, Node.nameN,
      List.lookup, hab, hba, hae, hbe]
  · simp [fillAllF, fillF, fillFieldsF, Node.isRegisteredN, Node.nameN,
      List.lookup, hab, hba, hae, hbe]
  · have hencA : nodeEncodeF 16
        [.structN na [(fa, ta, 2)], .structN nb [(fb, tb, 3)],
          .refN 1 1, .refN 1 0, .plainN kStruct nb, .plainN kStruct na] 0 =
        some (serializeEncodedSchema 0 kStruct na 0
          [serializeEncodedField fa ta (serializeEncodedSchema 1 kPtr [] 0 []
            (serializeEncodedSchema 0 kStruct nb 0 [] []))] []) := by
      simp [nodeEncodeF, nodeChildF, nodeFieldsF, Node.isRegisteredN,
        Node.nameN, Node.kindN, hae, hbe]
    have hencB : nodeEncodeF 16
        [.structN na [(fa, ta, 2)], .structN nb [(fb, tb, 3)],
          .refN 1 1, .refN 1 0, .plainN kStruct nb, .plainN kStruct na] 1 =
        some (serializeEncodedSchema 0 kStruct nb 0
          [serializeEncodedField fb tb (serializeEncodedSchema 1 kPtr [] 0 []
            (serializeEncodedSchema 0 kStruct na 0 [] []))] []) := by
      simp [nodeEncodeF, nodeChildF, nodeFieldsF, Node.isRegisteredN,
        Node.nameN, Node.kindN, hae, hbe]
    have hsort : sortEnts
        [(na, serializeEncodedSchema 0 kStruct na 0
          [serializeEncodedField fa ta (serializeEncodedSchema 1 kPtr [] 0 []
            (serializeEncodedSchema 0 kStruct nb 0 [] []))] []),
         (nb, serializeEncodedSchema 0 kStruct nb 0
          [serializeEncodedField fb tb (serializeEncodedSchema 1 kPtr [] 0 []
            (serializeEncodedSchema 0 kStruct na 0 [] []))] [])] =
        sortEnts
        [(nb, serializeEncodedSchema 0 kStruct nb 0
          [serializeEncodedField fb tb (serializeEncodedSchema 1 kPtr [] 0 []
            (serializeEncodedSchema 0 kStruct na 0 [] []))] []),
         (na, serializeEncodedSchema 0 kStruct na 0
          [serializeEncodedField fa ta (serializeEncodedSchema 1 kPtr [] 0 []
            (serializeEncodedSchema 0 kStruct nb 0 [] []))] [])] := by
      refine sortEnts_eq_of_perm _ _ (List.Perm.swap _ _ _) ?_
      simp [hne]
    refine ⟨sumSHA256 (serializeEntities (sortEnts
      [(na, serializeEncodedSchema 0 kStruct na 0
        [serializeEncodedField fa ta (serializeEncodedSchema 1 kPtr [] 0 []
          (serializeEncodedSchema 0 kStruct nb 0 [] []))] []),
       (nb, serializeEncodedSchema 0 kStruct nb 0
        [serializeEncodedField fb tb (serializeEncodedSchema 1 kPtr [] 0 []
          (serializeEncodedSchema 0 kStruct na 0 [] []))] [])])), ?_, ?_⟩
    · unfold storeRegistryReference storeRegistryEncode
      rw [show entsOfF 16
          [.structN na [(fa, ta, 2)], .structN nb [(fb, tb, 3)],
            .refN 1 1, .refN 1 0, .plainN kStruct nb, .plainN kStruct na]
          [(na, 0), (nb, 1)] =
          some [(na, serializeEncodedSchema 0 kStruct na 0
            [serializeEncodedField fa ta (serializeEncodedSchema 1 kPtr [] 0 []
              (serializeEncodedSchema 0 kStruct nb 0 [] []))] []),
           (nb, serializeEncodedSchema 0 kStruct nb 0
            [serializeEncodedField fb tb (serializeEncodedSchema 1 kPtr [] 0 []
              (serializeEncodedSchema 0 kStruct na 0 [] []))] [])] from by
        simp [entsOfF, hencA, hencB]]
      simp
    · unfold storeRegistryReference storeRegistryEncode
      rw [show entsOfF 16
          [.structN na [(fa, ta, 2)], .structN nb [(fb, tb, 3)],
            .refN 1 1, .refN 1 0, .plainN kStruct nb, .plainN kStruct na]
          [(nb, 1), (na, 0)] =
          some [(nb, serializeEncodedSchema 0 kStruct nb 0
            [serializeEncodedField fb tb (serializeEncodedSchema 1 kPtr [] 0 []
              (serializeEncodedSchema 0 kStruct na 0 [] []))] []),
           (na, serializeEncodedSchema 0 kStruct na 0
            [serializeEncodedField fa ta (serializeEncodedSchema 1 kPtr [] 0 []
              (serializeEncodedSchema 0 kStruct nb 0 [] []))] [])] from by
        simp [entsOfF, hencA, hencB]]
      simp [← hsort]

/-- Witness for C8: the cyclic pair built with names "A" and "B". -/
theorem cyclic_fill_terminates_witness :
    ([65] : List Nat) ≠ [] ∧ ([66] : List Nat) ≠ [] ∧
    ([65] : List Nat) ≠ [66] ∧
    (fillAllF 16 [([65], 0), ([66], 1)]
      [.structN [65] [([97], [], 2)], .structN [66] [([98], [], 3)],
        .refN 1 4, .refN 1 5, .plainN kStruct [66], .plainN kStruct [65]]
      [] [0, 1] =
      .ok [.structN [65] [([97], [], 2)], .structN [66] [([98], [], 3)],
        .refN 1 1, .refN 1 0, .plainN kStruct [66], .plainN kStruct [65]]) ∧
    (∃ r,
      storeRegistryReference 16
        [.structN [65] [([97], [], 2)], .structN [66] [([98], [], 3)],
          .refN 1 1, .refN 1 0, .plainN kStruct [66], .plainN kStruct [65]]
        [([65], 0), ([66], 1)] = some r ∧
      storeRegistryReference 16
        [.structN [65] [([97], [], 2)], .structN [66] [([98], [], 3)],
          .refN 1 1, .refN 1 0, .plainN kStruct [66], .plainN kStruct [65]]
        [([66], 1), ([65], 0)] = some r) :=
  have h := cyclic_fill_terminates [65] [66] [97] [98] [] []
    (by decide) (by decide) (by decide)
  ⟨by decide, by decide, by decide, h.1, h.2.2.2⟩

end Cxo

